import Mathlib

/-!
# iplookuptree: a radix-16 trie from IPv4 prefixes to service bit masks

Shallow embedding of `iplookuptree.go`.

* A `*treenode` that is not nil is a value of `treenode`; a possibly nil
  `*treenode` (an entry of `ptrs`) is an `Option treenode`.  The Go tree is
  single-owner (a node is reachable through exactly one `ptrs` entry), so an
  in-place update of a node reached through `node.ptrs[ind]` is the
  functional update of that entry of the parent.
* `uint32` / `uint8` / `uint64` values are naturals; wrap-around is written
  with an explicit `%`.
* A Go run-time panic (index out of range) is the result `none`.
-/

namespace Iplookuptree

/-- Source: `const bitslen = 4`. -/
def bitslen : Nat := 4

/-- Source: `type SID uint64`.  A value of the Go type is a natural below `2 ^ 64`. -/
abbrev SID := Nat

/-- Source: `math.MaxUint64`. -/
def MaxUint64 : Nat := 2 ^ 64 - 1

/-- Source: `type treenode struct { srvs [1<<bitslen]SID; ptrs [1<<bitslen]*treenode }`,
with `1<<bitslen = 16`. -/
inductive treenode where
  | mk (srvs : Fin 16 → SID) (ptrs : Fin 16 → Option treenode) : treenode

/-- Field `srvs` of a node. -/
def treenode.srvs : treenode → Fin 16 → SID
  | .mk s _ => s

/-- Field `ptrs` of a node. -/
def treenode.ptrs : treenode → Fin 16 → Option treenode
  | .mk _ p => p

/-- The zero value `&treenode{}`: every slot 0, every pointer nil. -/
def treenode.zero : treenode := .mk (fun _ => 0) (fun _ => none)

/-- Assignment `node.srvs[j] = v` for an index in range. -/
def treenode.setSrv (node : treenode) (j : Fin 16) (v : SID) : treenode :=
  .mk (Function.update node.srvs j v) node.ptrs

/-- Assignment `node.ptrs[j] = p`. -/
def treenode.setPtr (node : treenode) (j : Fin 16) (p : Option treenode) : treenode :=
  .mk node.srvs (Function.update node.ptrs j p)

/-- Source: `treenode.isEmpty`: no slot is non-zero and no pointer is non-nil. -/
def treenode.isEmpty (node : treenode) : Bool :=
  (List.finRange 16).all fun i => !(node.srvs i != 0 || (node.ptrs i).isSome)

/-- Source: `type Tree struct { root *treenode }`; the root made by `New` is never nil. -/
structure Tree where
  root : treenode

/-- Source: `New`. -/
def New : Tree := ⟨treenode.zero⟩

/-- A 4-byte slice `[]byte{b0, b1, b2, b3}`. -/
structure IPv4 where
  b0 : Fin 256
  b1 : Fin 256
  b2 : Fin 256
  b3 : Fin 256
  deriving DecidableEq

/-- Standard library `binary.BigEndian.Uint32` on a 4-byte slice. -/
def bigEndianUint32 (b : IPv4) : Nat :=
  b.b0.val * 2 ^ 24 + b.b1.val * 2 ^ 16 + b.b2.val * 2 ^ 8 + b.b3.val

/-- Source: `getSubstring`.  `index` is a `uint8`, so the shift count
`bitslen * index` is computed modulo 256; the left shift is a `uint32` shift
(bits shifted past position 31 are lost, a count of 32 or more gives 0). -/
def getSubstring (ipv4 : IPv4) (index : Nat) : Nat :=
  let ans := bigEndianUint32 ipv4
  let ans := (ans * 2 ^ ((bitslen * index) % 256)) % 2 ^ 32
  ans / 2 ^ (32 - bitslen)

/-- A `net.IPNet` as the code uses it: the field `IP` (4 bytes) and the
first result of the standard-library call `ipnet.Mask.Size()`. -/
structure IPNet where
  IP : IPv4
  prefixLen : Nat
  deriving DecidableEq

/-- The loop `for j := start; j <= end; j++ { node.srvs[j] = f(node.srvs[j]) }`
with `n` iterations left and loop variable `j`; an index `j ≥ 16` panics. -/
def updRange (f : SID → SID) : Nat → Nat → treenode → Option treenode
  | 0, _, node => some node
  | n + 1, j, node =>
    if h : j < 16 then
      updRange f n (j + 1) (node.setSrv ⟨j, h⟩ (f (node.srvs ⟨j, h⟩)))
    else none

/-- Source: `end := start + (1<<uint(curLen - prefixLen)) - 1` in `uint32` arithmetic. -/
def rangeEnd (start curLen prefixLen : Nat) : Nat :=
  (start + (2 ^ (curLen - prefixLen)) % 2 ^ 32 + (2 ^ 32 - 1)) % 2 ^ 32

/-- The slot / child index `getSubstring(ip, uint8(i))` as an array index: a
`uint32` shifted right by 28 is below 16. -/
def nib (ipv4 : IPv4) (i : Nat) : Fin 16 :=
  ⟨getSubstring ipv4 i, by
    unfold getSubstring bitslen
    have h : (bigEndianUint32 ipv4 * 2 ^ ((4 * i) % 256)) % 2 ^ 32 < 2 ^ 32 :=
      Nat.mod_lt _ (by norm_num)
    simp only []
    omega⟩

/-- Source: the `for` loop of `Tree.Add`, with `fuel = 32 / bitslen - i`
iterations left, on the node `node` the loop is at.  It returns the new
state of that node (the nodes below it included); the child descended into
is `node.ptrs[ind]`, or a fresh `&treenode{}` when that is nil. -/
def addLoop (service : SID) (ip : IPv4) (prefixLen : Nat) :
    Nat → Nat → Nat → treenode → Option treenode
  | 0, _, _, node => some node
  | fuel + 1, i, curLen, node =>
    if curLen ≥ prefixLen then
      let start := getSubstring ip i
      let end_ := rangeEnd start curLen prefixLen
      updRange (fun x => x ||| service) (end_ + 1 - start) start node
    else
      let ind := nib ip i
      let child := (node.ptrs ind).getD treenode.zero
      (addLoop service ip prefixLen fuel (i + 1) (curLen + bitslen) child).map
        fun child' => node.setPtr ind (some child')

/-- Source: `Tree.Add`. -/
def Tree.Add (tree : Tree) (service : SID) (ipnet : IPNet) : Option Tree :=
  (addLoop service ipnet.IP ipnet.prefixLen (32 / bitslen) 0 bitslen tree.root).map Tree.mk

/-- Source: the `for` loop of `Tree.Get`, with accumulator `ans` and current node `cur`. -/
def getLoop (ipv4 : IPv4) : Nat → Nat → SID → treenode → SID
  | 0, _, ans, _ => ans
  | fuel + 1, i, ans, cur =>
    let ind := nib ipv4 i
    let ans := ans ||| cur.srvs ind
    match cur.ptrs ind with
    | none => ans
    | some c => getLoop ipv4 fuel (i + 1) ans c

/-- Source: `Tree.Get`. -/
def Tree.Get (tree : Tree) (ipv4 : IPv4) : SID :=
  getLoop ipv4 (32 / bitslen) 0 0 tree.root

/-- Source: `Tree.Remove`, the descent loop and the pruning loop together,
on the node `node = path[i]` with `fuel = 32 / bitslen - i` iterations of the
descent left.  The result is the state of that node after the descent from
level `i` on and after the pruning steps `pathlen-1, …, i+1`.  The arrays are
not stored: `path[i]` is the argument `node`, `indpath[i+1]` is `ind`, and the
pruning step `i+1` (which reads `path[i+1]`, `path[i]` and `indpath[i+1]`) is
done when the call for level `i+1` returns, that is after the steps
`pathlen-1, …, i+2`, as in the source.  Those deeper steps change only
`path[i+1]` and nodes below it.

* Terminal level (`curLen >= prefixLen`): the bits of `service` are cleared in
  the slots `start..end`.
* Otherwise `indpath[pathlen] = ind` is written with `pathlen = i + 1`, which
  panics when `i + 1 = 8`.  Then
  - `node.ptrs[ind] != nil`: `path[i+1]` is that child; after the deeper steps
    the pruning step `i+1` sets `node.ptrs[ind] = nil` when the child is empty;
  - `node.ptrs[ind] == nil`: `node` is unchanged, so `path[i+1]` is the same
    node as `path[i]`; the deeper steps act on it, and the pruning step `i+1`
    (with `parent = node`) sets `node.ptrs[ind] = nil` when it is empty. -/
def removeLoop (reversedService : SID) (ip : IPv4) (prefixLen : Nat) :
    Nat → Nat → Nat → treenode → Option treenode
  | 0, _, _, node => some node
  | fuel + 1, i, curLen, node =>
    if curLen ≥ prefixLen then
      let start := getSubstring ip i
      let end_ := rangeEnd start curLen prefixLen
      updRange (fun x => x &&& reversedService) (end_ + 1 - start) start node
    else if i + 1 < 32 / bitslen then
      let ind := nib ip i
      match node.ptrs ind with
      | some c =>
        (removeLoop reversedService ip prefixLen fuel (i + 1) (curLen + bitslen) c).map
          fun c' => if c'.isEmpty then node.setPtr ind none else node.setPtr ind (some c')
      | none =>
        (removeLoop reversedService ip prefixLen fuel (i + 1) (curLen + bitslen) node).map
          fun node' => if node'.isEmpty then node'.setPtr ind none else node'
    else none

/-- Source: `Tree.Remove`; `reversedService := math.MaxUint64 ^ service`. -/
def Tree.Remove (tree : Tree) (service : SID) (ipnet : IPNet) : Option Tree :=
  (removeLoop (MaxUint64 ^^^ service) ipnet.IP ipnet.prefixLen (32 / bitslen) 0 bitslen
    tree.root).map Tree.mk

/-- The address `a.b.c.d`. -/
def ip4 (a b c d : Fin 256) : IPv4 := ⟨a, b, c, d⟩

/-- The prefix `ip/len`. -/
def cidr (ip : IPv4) (len : Nat) : IPNet := ⟨ip, len⟩

/-- A prefix is canonical: its length is at most 32 and every address bit
after the first `prefixLen` bits is zero. -/
def IPNet.canonical (p : IPNet) : Prop :=
  p.prefixLen ≤ 32 ∧ bigEndianUint32 p.IP % 2 ^ (32 - p.prefixLen) = 0

instance (p : IPNet) : Decidable p.canonical :=
  inferInstanceAs (Decidable (p.prefixLen ≤ 32 ∧ bigEndianUint32 p.IP % 2 ^ (32 - p.prefixLen) = 0))

/-- The address `a` lies in the range of the prefix `p`: it shares its first
`prefixLen` bits with the address of the prefix. -/
def IPNet.contains (p : IPNet) (a : IPv4) : Prop :=
  bigEndianUint32 a / 2 ^ (32 - p.prefixLen) = bigEndianUint32 p.IP / 2 ^ (32 - p.prefixLen)

instance (p : IPNet) (a : IPv4) : Decidable (p.contains a) :=
  inferInstanceAs (Decidable (bigEndianUint32 a / 2 ^ (32 - p.prefixLen) =
    bigEndianUint32 p.IP / 2 ^ (32 - p.prefixLen)))

/-- The value `Get` accumulates from the node `cur` at level `i` on, with
`fuel` levels left (the loop of `Tree.Get` without its accumulator). -/
def getFrom (ipv4 : IPv4) : Nat → Nat → treenode → SID
  | 0, _, _ => 0
  | fuel + 1, i, cur =>
    cur.srvs (nib ipv4 i) |||
      (match cur.ptrs (nib ipv4 i) with
       | none => 0
       | some c => getFrom ipv4 fuel (i + 1) c)

/-- The slots the loops of `Add` and `Remove` reach for the address `a`: at
the terminal level the slot of `a` lies in `start..end`, before it the bit
group of `a` is the one of the prefix. -/
def covers (ip : IPv4) (prefixLen : Nat) (a : IPv4) : Nat → Nat → Nat → Prop
  | 0, _, _ => False
  | fuel + 1, i, curLen =>
    if curLen ≥ prefixLen then
      getSubstring ip i ≤ getSubstring a i ∧
        getSubstring a i ≤ rangeEnd (getSubstring ip i) curLen prefixLen
    else
      nib a i = nib ip i ∧ covers ip prefixLen a fuel (i + 1) (curLen + bitslen)

/-- Every slot of the node and of the nodes below it holds a `uint64` value
(the Go type of a slot is `SID`). -/
inductive treenode.Valid : treenode → Prop where
  | mk (srvs : Fin 16 → SID) (ptrs : Fin 16 → Option treenode) :
      (∀ j, srvs j < 2 ^ 64) → (∀ j c, ptrs j = some c → treenode.Valid c) →
      treenode.Valid (.mk srvs ptrs)

/-- No slot in the terminal range `start..end` of the prefix, along the path
of the prefix from `node` at level `i` on, carries a bit of `service`.  When
the path ends before the terminal level there is no such slot. -/
def freshFor (service : SID) (ip : IPv4) (prefixLen : Nat) : Nat → Nat → Nat → treenode → Prop
  | 0, _, _, _ => True
  | fuel + 1, i, curLen, node =>
    if curLen ≥ prefixLen then
      ∀ j : Fin 16, getSubstring ip i ≤ j.val →
        j.val ≤ rangeEnd (getSubstring ip i) curLen prefixLen → node.srvs j &&& service = 0
    else
      ∀ c, node.ptrs (nib ip i) = some c →
        freshFor service ip prefixLen fuel (i + 1) (curLen + bitslen) c

/-- No node below `node` is empty: every node reached through a pointer has a
non-zero slot or a child (`node` itself may be empty, as the root may). -/
inductive treenode.Pruned : treenode → Prop where
  | mk (srvs : Fin 16 → SID) (ptrs : Fin 16 → Option treenode) :
      (∀ j c, ptrs j = some c → c.isEmpty = false) →
      (∀ j c, ptrs j = some c → treenode.Pruned c) →
      treenode.Pruned (.mk srvs ptrs)

/-- The entry `e` is routed, at a node of depth `k`, to the child `j`: its
prefix ends below level `k` and its bit group at level `k` is `j`. -/
def routed (k : Nat) (j : Fin 16) (e : SID × IPNet) : Bool :=
  decide (4 * (k + 1) < e.2.prefixLen ∧ nib e.2.IP k = j)

/-- Every set bit of every slot of the subtree of `node`, a node of depth `k`,
is a bit of an entry of `S` whose terminal range at that node has the slot;
`S` lists the entries routed to `node`. -/
inductive Covered : List (SID × IPNet) → Nat → treenode → Prop where
  | mk (S : List (SID × IPNet)) (k : Nat) (srvs : Fin 16 → SID)
      (ptrs : Fin 16 → Option treenode) :
      (∀ (j : Fin 16) (b : Nat), (srvs j).testBit b = true →
        ∃ e ∈ S, e.2.prefixLen ≤ 4 * (k + 1) ∧ getSubstring e.2.IP k ≤ j.val ∧
          j.val ≤ rangeEnd (getSubstring e.2.IP k) (4 * (k + 1)) e.2.prefixLen ∧
          e.1.testBit b = true) →
      (∀ j c, ptrs j = some c → Covered (S.filter (routed k j)) (k + 1) c) →
      Covered S k (.mk srvs ptrs)

/-- The nodes on the path of the prefix, from `node` at level `i` down to the
terminal level, exist. -/
def hasPath (ip : IPv4) (prefixLen : Nat) : Nat → Nat → Nat → treenode → Prop
  | 0, _, _, _ => True
  | fuel + 1, i, curLen, node =>
    if curLen ≥ prefixLen then True
    else ∃ c, node.ptrs (nib ip i) = some c ∧
      hasPath ip prefixLen fuel (i + 1) (curLen + bitslen) c

/-- A sequence of `Add` calls, one for each entry `(service, prefix)`, in order. -/
def addAll (t : Tree) : List (SID × IPNet) → Option Tree
  | [] => some t
  | e :: es => (t.Add e.1 e.2).bind fun t' => addAll t' es

/-- A sequence of `Remove` calls, one for each entry `(service, prefix)`, in order. -/
def removeAll (t : Tree) : List (SID × IPNet) → Option Tree
  | [] => some t
  | e :: es => (t.Remove e.1 e.2).bind fun t' => removeAll t' es

/-- The bitwise OR of a list of service masks. -/
def orAll : List SID → SID
  | [] => 0
  | s :: l => s ||| orAll l

/-- The tree the specification describes for one `Add(service, ip/prefixLen)`
on the empty tree, from the node of level `k` on, with `r` child nodes of the
chain still to come.  A chain node has every slot 0 and one child, at the bit
group of the address at its level; the last node (`r = 0`) has no child and
holds `service` in the `2 ^ (4 * (k + 1) - prefixLen)` consecutive slots that
start at the bit group of the address at level `k`. -/
def expectedShape (service : SID) (ip : IPv4) (prefixLen : Nat) : Nat → Nat → treenode
  | 0, k =>
    .mk (fun j => if getSubstring ip k ≤ j.val ∧
        j.val < getSubstring ip k + 2 ^ (4 * (k + 1) - prefixLen) then service else 0)
      (fun _ => none)
  | r + 1, k =>
    .mk (fun _ => 0)
      (fun j => if j = nib ip k then some (expectedShape service ip prefixLen r (k + 1)) else none)

/-- The number `d = max(1, ceil(L / 4))` of nodes on the path of a prefix of
length `L`, the root included. -/
def pathNodes (prefixLen : Nat) : Nat := max 1 ((prefixLen + 3) / 4)

/-- No node lies more than `d` levels below `node`. -/
def heightLe : Nat → treenode → Prop
  | 0, node => ∀ j, node.ptrs j = none
  | d + 1, node => ∀ j c, node.ptrs j = some c → heightLe d c

/-- The number of nodes of the subtree of `node` on its first `d` levels
(`node` is level 1): all its nodes when no node lies `d` levels below `node`. -/
def nodeCount : Nat → treenode → Nat
  | 0, _ => 0
  | d + 1, node => 1 + ∑ j : Fin 16, (node.ptrs j).elim 0 (nodeCount d)

/-- The number of nodes the loop of `Tree.Get` dereferences (`cur.srvs[ind]`
and `cur.ptrs[ind]`), from the node `cur` at level `i` on: one an iteration,
until the loop ends or finds a nil pointer. -/
def getVisits (ipv4 : IPv4) : Nat → Nat → treenode → Nat
  | 0, _, _ => 0
  | fuel + 1, i, cur => 1 + (cur.ptrs (nib ipv4 i)).elim 0 (getVisits ipv4 fuel (i + 1))

/-- One call of `Add` or of `Remove`. -/
inductive Op where
  | add (service : SID) (ipnet : IPNet) : Op
  | remove (service : SID) (ipnet : IPNet) : Op

/-- The prefix an operation is called with. -/
def Op.ipnet : Op → IPNet
  | .add _ p => p
  | .remove _ p => p

/-- The call an operation stands for. -/
def Op.run (t : Tree) : Op → Option Tree
  | .add s p => t.Add s p
  | .remove s p => t.Remove s p

/-- A sequence of `Add` and `Remove` calls, in order. -/
def runOps (t : Tree) : List Op → Option Tree
  | [] => some t
  | op :: ops => (op.run t).bind fun t' => runOps t' ops

/-! ## Theorems -/

/-! ### Bit groups and ranges -/

theorem bigEndianUint32_lt (b : IPv4) : bigEndianUint32 b < 2 ^ 32 := by
  unfold bigEndianUint32
  have h0 := b.b0.isLt
  have h1 := b.b1.isLt
  have h2 := b.b2.isLt
  have h3 := b.b3.isLt
  omega

theorem getSubstring_eq (b : IPv4) (i : Nat) (hi : i < 8) :
    getSubstring b i = (bigEndianUint32 b / 2 ^ (28 - 4 * i)) % 16 := by
  have hb := bigEndianUint32_lt b
  unfold getSubstring bitslen
  interval_cases i <;> simp only [] <;> norm_num <;> omega

theorem nib_val (b : IPv4) (i : Nat) : (nib b i).val = getSubstring b i := rfl

theorem nibble_div (x q d : Nat) :
    (x % 2 ^ (q + 4)) / 2 ^ (q + d) = ((x / 2 ^ q) % 16) / 2 ^ d := by
  rw [pow_add 2 q d, ← Nat.div_div_eq_div_mul, pow_add 2 q 4, Nat.mod_mul_right_div_self]
  norm_num

theorem aligned_div (y q d : Nat) (h : y % 2 ^ (q + d) = 0) : (y / 2 ^ q) % 2 ^ d = 0 := by
  obtain ⟨k, hk⟩ := Nat.dvd_of_mod_eq_zero h
  rw [hk, pow_add, Nat.mul_assoc, Nat.mul_div_cancel_left _ (by positivity)]
  exact Nat.mul_mod_right _ _

theorem range_ok (ip : IPv4) (L i : Nat) (hcan : (IPNet.mk ip L).canonical) (hi : i < 8)
    (hlo : i = 0 ∨ 4 * i < L) (hhi : L ≤ 4 * (i + 1)) :
    rangeEnd (getSubstring ip i) (4 * (i + 1)) L + 1 - getSubstring ip i = 2 ^ (4 * (i + 1) - L) ∧
      getSubstring ip i + 2 ^ (4 * (i + 1) - L) ≤ 16 := by
  obtain ⟨hL, hc⟩ := hcan
  simp only at hL hc
  rw [getSubstring_eq ip i hi]
  unfold rangeEnd
  have e2 : 32 - L = (28 - 4 * i) + (4 * (i + 1) - L) := by omega
  rw [e2] at hc
  have hd : 4 * (i + 1) - L ≤ 4 := by omega
  have hal := aligned_div _ _ _ hc
  generalize 4 * (i + 1) - L = d at hd hal ⊢
  generalize bigEndianUint32 ip / 2 ^ (28 - 4 * i) = z at hal ⊢
  interval_cases d <;> simp at hal ⊢ <;> omega

theorem range_arith (x y L i : Nat)
    (hc : y % 2 ^ (32 - L) = 0) (hi : i < 8) (hlo : i = 0 ∨ 4 * i < L) (hhi : L ≤ 4 * (i + 1)) :
    ((y / 2 ^ (28 - 4 * i)) % 16 ≤ (x / 2 ^ (28 - 4 * i)) % 16 ∧
      (x / 2 ^ (28 - 4 * i)) % 16 < (y / 2 ^ (28 - 4 * i)) % 16 + 2 ^ (4 * (i + 1) - L)) ↔
    (x % 2 ^ (32 - 4 * i)) / 2 ^ (32 - L) = (y % 2 ^ (32 - 4 * i)) / 2 ^ (32 - L) := by
  have e1 : 32 - 4 * i = (28 - 4 * i) + 4 := by omega
  have e2 : 32 - L = (28 - 4 * i) + (4 * (i + 1) - L) := by omega
  rw [e2] at hc
  rw [e1, e2, nibble_div, nibble_div]
  have hd : 4 * (i + 1) - L ≤ 4 := by omega
  have hal := aligned_div _ _ _ hc
  generalize 4 * (i + 1) - L = d at hd hal ⊢
  generalize y / 2 ^ (28 - 4 * i) = z at hal ⊢
  generalize x / 2 ^ (28 - 4 * i) = w at hal ⊢
  interval_cases d <;> simp at hal ⊢ <;> omega

theorem add_mul_inj (K a b A B : Nat) (ha : a < K) (hb : b < K) :
    a + K * A = b + K * B ↔ A = B ∧ a = b := by
  constructor
  · intro h
    have hK : 0 < K := by omega
    have h1 : (a + K * A) / K = (b + K * B) / K := by rw [h]
    rw [Nat.add_mul_div_left _ _ hK, Nat.add_mul_div_left _ _ hK, Nat.div_eq_of_lt ha,
      Nat.div_eq_of_lt hb] at h1
    have h2 : A = B := by omega
    subst h2
    exact ⟨rfl, by omega⟩
  · rintro ⟨rfl, rfl⟩; rfl

theorem split_div (x y q p : Nat) (hpq : p ≤ q) :
    (x % 2 ^ (q + 4)) / 2 ^ p = (y % 2 ^ (q + 4)) / 2 ^ p ↔
      ((x / 2 ^ q) % 16 = (y / 2 ^ q) % 16 ∧ (x % 2 ^ q) / 2 ^ p = (y % 2 ^ q) / 2 ^ p) := by
  have key : ∀ z : Nat, (z % 2 ^ (q + 4)) / 2 ^ p
      = (z % 2 ^ q) / 2 ^ p + 2 ^ (q - p) * ((z / 2 ^ q) % 16) ∧ (z % 2 ^ q) / 2 ^ p < 2 ^ (q - p) := by
    intro z
    have h2 : (2:Nat) ^ q = 2 ^ p * 2 ^ (q - p) := by
      rw [← pow_add]; congr 1; omega
    have hp : 0 < (2:Nat) ^ p := by positivity
    constructor
    · have h1 : z % 2 ^ (q + 4) = z % 2 ^ q + 2 ^ q * (z / 2 ^ q % 16) := by
        rw [pow_add]; exact Nat.mod_mul
      rw [h1]
      rw [show (2:Nat) ^ q * (z / 2 ^ q % 16) = 2 ^ p * (2 ^ (q - p) * (z / 2 ^ q % 16)) from by
        rw [← Nat.mul_assoc, ← h2]]
      rw [Nat.add_mul_div_left _ _ hp]
    · apply Nat.div_lt_of_lt_mul
      rw [← h2]
      exact Nat.mod_lt _ (by positivity)
  rw [(key x).1, (key y).1]
  exact add_mul_inj _ _ _ _ _ (key x).2 (key y).2

theorem descend_arith (x y L i : Nat)
    (hlo : 4 * (i + 1) < L) (hL : L ≤ 32) :
    ((x % 2 ^ (32 - 4 * i)) / 2 ^ (32 - L) = (y % 2 ^ (32 - 4 * i)) / 2 ^ (32 - L)) ↔
    ((x / 2 ^ (28 - 4 * i)) % 16 = (y / 2 ^ (28 - 4 * i)) % 16 ∧
      (x % 2 ^ (32 - 4 * (i + 1))) / 2 ^ (32 - L) = (y % 2 ^ (32 - 4 * (i + 1))) / 2 ^ (32 - L)) := by
  have h1 : 32 - 4 * i = (28 - 4 * i) + 4 := by omega
  have h2 : 32 - 4 * (i + 1) = 28 - 4 * i := by omega
  rw [h1, h2]
  exact split_div x y _ _ (by omega)

theorem covers_iff (ip a : IPv4) (L : Nat) (hcan : (IPNet.mk ip L).canonical) :
    ∀ fuel i, i + fuel = 8 → (i = 0 ∨ 4 * i < L) →
      (covers ip L a fuel i (4 * (i + 1)) ↔
        (bigEndianUint32 a % 2 ^ (32 - 4 * i)) / 2 ^ (32 - L) =
          (bigEndianUint32 ip % 2 ^ (32 - 4 * i)) / 2 ^ (32 - L)) := by
  have hL : L ≤ 32 := hcan.1
  have hc : bigEndianUint32 ip % 2 ^ (32 - L) = 0 := hcan.2
  intro fuel
  induction fuel with
  | zero => intro i h1 h2; omega
  | succ fuel ih =>
    intro i h1 h2
    have hi : i < 8 := by omega
    unfold covers
    by_cases hterm : 4 * (i + 1) ≥ L
    · rw [if_pos hterm, ← range_arith _ _ L i hc hi h2 hterm, ← getSubstring_eq ip i hi,
        ← getSubstring_eq a i hi]
      obtain ⟨e, _⟩ := range_ok ip L i hcan hi h2 hterm
      have hpos : 0 < 2 ^ (4 * (i + 1) - L) := by positivity
      omega
    · rw [if_neg hterm]
      have hlt : 4 * (i + 1) < L := by omega
      have e : 4 * (i + 1) + bitslen = 4 * (i + 1 + 1) := by unfold bitslen; omega
      rw [e, ih (i + 1) (by omega) (Or.inr hlt), descend_arith _ _ L i hlt hL, Fin.ext_iff,
        nib_val, nib_val, getSubstring_eq ip i hi, getSubstring_eq a i hi]

theorem covers_iff_contains (ip a : IPv4) (L : Nat) (hcan : (IPNet.mk ip L).canonical) :
    covers ip L a (32 / bitslen) 0 bitslen ↔ (IPNet.mk ip L).contains a := by
  have h := covers_iff ip a L hcan 8 0 rfl (Or.inl rfl)
  have ha := bigEndianUint32_lt a
  have hb := bigEndianUint32_lt ip
  simp only [Nat.mul_zero, Nat.sub_zero, Nat.mod_eq_of_lt ha, Nat.mod_eq_of_lt hb] at h
  exact h

/-! ### Nodes and loops -/

@[simp] theorem srvs_mk (s p) : (treenode.mk s p).srvs = s := rfl
@[simp] theorem ptrs_mk (s p) : (treenode.mk s p).ptrs = p := rfl
@[simp] theorem srvs_setSrv (n : treenode) (j v) : (n.setSrv j v).srvs = Function.update n.srvs j v := rfl
@[simp] theorem ptrs_setSrv (n : treenode) (j v) : (n.setSrv j v).ptrs = n.ptrs := rfl
@[simp] theorem srvs_setPtr (n : treenode) (j p) : (n.setPtr j p).srvs = n.srvs := rfl
@[simp] theorem ptrs_setPtr (n : treenode) (j p) : (n.setPtr j p).ptrs = Function.update n.ptrs j p := rfl
@[simp] theorem srvs_zero : treenode.zero.srvs = fun _ => 0 := rfl
@[simp] theorem ptrs_zero : treenode.zero.ptrs = fun _ => none := rfl

theorem treenode.ext {a b : treenode} (h1 : a.srvs = b.srvs) (h2 : a.ptrs = b.ptrs) : a = b := by
  cases a; cases b; simp at h1 h2; subst h1; subst h2; rfl

theorem isEmpty_iff (n : treenode) :
    n.isEmpty = true ↔ (∀ j, n.srvs j = 0) ∧ (∀ j, n.ptrs j = none) := by
  unfold treenode.isEmpty
  simp only [List.all_eq_true, List.mem_finRange, forall_true_left]
  constructor
  · intro h
    constructor
    · intro j; have := h j; simp at this; exact this.1
    · intro j; have := h j; simp at this; exact this.2
  · rintro ⟨h1, h2⟩ j; simp [h1 j, h2 j]

theorem isEmpty_eq_zero (n : treenode) (h : n.isEmpty = true) : n = treenode.zero := by
  rw [isEmpty_iff] at h
  apply treenode.ext
  · funext j; simp [h.1 j]
  · funext j; simp [h.2 j]

theorem updRange_some (f : SID → SID) : ∀ (n j : Nat) (node node' : treenode),
    updRange f n j node = some node' →
      node'.ptrs = node.ptrs ∧
      ∀ k : Fin 16, node'.srvs k =
        if j ≤ k.val ∧ k.val < j + n then f (node.srvs k) else node.srvs k := by
  intro n
  induction n with
  | zero =>
    intro j node node' h
    simp only [updRange, Option.some.injEq] at h
    subst h
    refine ⟨rfl, fun k => ?_⟩
    rw [if_neg (by omega)]
  | succ n ih =>
    intro j node node' h
    unfold updRange at h
    split at h
    · rename_i hj
      obtain ⟨h1, h2⟩ := ih _ _ _ h
      refine ⟨by rw [h1]; rfl, fun k => ?_⟩
      rw [h2 k]
      simp only [srvs_setSrv]
      by_cases hk : k = ⟨j, hj⟩
      · subst hk
        simp
      · have hk' : k.val ≠ j := fun e => hk (Fin.ext e)
        rw [Function.update_noteq hk]
        by_cases hr : j + 1 ≤ k.val ∧ k.val < j + 1 + n
        · rw [if_pos hr, if_pos (by omega)]
        · rw [if_neg hr, if_neg (by omega)]
    · exact absurd h (by simp)

theorem updRange_isSome (f : SID → SID) : ∀ (n j : Nat) (node : treenode),
    j + n ≤ 16 → ∃ node', updRange f n j node = some node' := by
  intro n
  induction n with
  | zero => intro j node _; exact ⟨node, rfl⟩
  | succ n ih =>
    intro j node h
    have hj : j < 16 := by omega
    unfold updRange
    rw [dif_pos hj]
    exact ih _ _ (by omega)

theorem getLoop_eq (a : IPv4) : ∀ (fuel i : Nat) (ans : SID) (cur : treenode),
    getLoop a fuel i ans cur = ans ||| getFrom a fuel i cur := by
  intro fuel
  induction fuel with
  | zero => intro i ans cur; simp [getLoop, getFrom]
  | succ fuel ih =>
    intro i ans cur
    unfold getLoop getFrom
    simp only []
    cases h : cur.ptrs (nib a i) with
    | none => simp
    | some c => simp only []; rw [ih, Nat.lor_assoc]

theorem Get_eq (t : Tree) (a : IPv4) : t.Get a = getFrom a (32 / bitslen) 0 t.root := by
  unfold Tree.Get
  rw [getLoop_eq]; simp

theorem getFrom_succ (a : IPv4) (fuel i : Nat) (cur : treenode) :
    getFrom a (fuel + 1) i cur =
      cur.srvs (nib a i) ||| (cur.ptrs (nib a i)).elim 0 (getFrom a fuel (i + 1)) := by
  unfold getFrom
  cases cur.ptrs (nib a i) <;> rfl

theorem getFrom_zero (a : IPv4) (fuel i : Nat) : getFrom a fuel i treenode.zero = 0 := by
  cases fuel <;> simp [getFrom]

theorem getFrom_empty (a : IPv4) (fuel i : Nat) (n : treenode) (h : n.isEmpty = true) :
    getFrom a fuel i n = 0 := by
  rw [isEmpty_eq_zero n h]; exact getFrom_zero a fuel i


/-! ### Add -/

theorem lor_right_comm (x s r : Nat) : (x ||| s) ||| r = (x ||| r) ||| s := by
  rw [Nat.lor_assoc, Nat.lor_comm s r, ← Nat.lor_assoc]

theorem getFrom_getD (a : IPv4) (fuel i : Nat) (p : Option treenode) :
    getFrom a fuel i (p.getD treenode.zero) = p.elim 0 (getFrom a fuel i) := by
  cases p with
  | none => exact getFrom_zero a fuel i
  | some c => rfl

theorem addLoop_get (s : SID) (ip : IPv4) (L : Nat) (a : IPv4) :
    ∀ (fuel i curLen : Nat) (node node' : treenode),
      addLoop s ip L fuel i curLen node = some node' →
        (covers ip L a fuel i curLen → getFrom a fuel i node' = getFrom a fuel i node ||| s) ∧
        (¬ covers ip L a fuel i curLen → getFrom a fuel i node' = getFrom a fuel i node) := by
  intro fuel
  induction fuel with
  | zero =>
    intro i curLen node node' h
    simp only [addLoop, Option.some.injEq] at h
    subst h
    exact ⟨fun hc => absurd hc (by simp [covers]), fun _ => rfl⟩
  | succ fuel ih =>
    intro i curLen node node' h
    unfold addLoop at h
    unfold covers
    by_cases hterm : curLen ≥ L
    · rw [if_pos hterm] at h
      rw [if_pos hterm]
      obtain ⟨hp, hs⟩ := updRange_some _ _ _ _ _ h
      have hsa := hs (nib a i)
      rw [nib_val] at hsa
      rw [getFrom_succ, getFrom_succ, hp]
      constructor
      · intro hc
        rw [hsa, if_pos (by omega), lor_right_comm]
      · intro hc
        rw [hsa, if_neg (by omega)]
    · rw [if_neg hterm] at h
      rw [if_neg hterm]
      simp only [Option.map_eq_some'] at h
      obtain ⟨child', hrec, rfl⟩ := h
      obtain ⟨ih1, ih2⟩ := ih _ _ _ _ hrec
      rw [getFrom_getD] at ih1 ih2
      rw [getFrom_succ, getFrom_succ]
      simp only [srvs_setPtr, ptrs_setPtr]
      by_cases hn : nib a i = nib ip i
      · rw [hn, Function.update_same]
        constructor
        · intro hc
          rw [Option.elim_some, ih1 hc.2, Nat.lor_assoc]
        · intro hc
          rw [Option.elim_some, ih2 (fun h' => hc ⟨rfl, h'⟩)]
      · rw [Function.update_noteq hn]
        exact ⟨fun hc => absurd hc.1 hn, fun _ => rfl⟩

theorem addLoop_isSome (s : SID) (ip : IPv4) (L : Nat) (hcan : (IPNet.mk ip L).canonical) :
    ∀ (fuel i : Nat) (node : treenode), i + fuel = 8 → (i = 0 ∨ 4 * i < L) →
      ∃ node', addLoop s ip L fuel i (4 * (i + 1)) node = some node' := by
  intro fuel
  induction fuel with
  | zero => intro i node _ _; exact ⟨node, rfl⟩
  | succ fuel ih =>
    intro i node h1 h2
    unfold addLoop
    by_cases hterm : 4 * (i + 1) ≥ L
    · rw [if_pos hterm]
      simp only []
      obtain ⟨e, hle⟩ := range_ok ip L i hcan (by omega) h2 hterm
      rw [e]
      exact updRange_isSome _ _ _ _ hle
    · rw [if_neg hterm]
      simp only []
      have e : 4 * (i + 1) + bitslen = 4 * (i + 1 + 1) := by unfold bitslen; omega
      rw [e]
      obtain ⟨c', hc'⟩ := ih (i + 1) ((node.ptrs (nib ip i)).getD treenode.zero)
        (by omega) (Or.inr (by omega))
      rw [hc']
      exact ⟨_, rfl⟩


theorem lor_land_self (g s : Nat) : (g ||| s) &&& s = s := by
  apply Nat.eq_of_testBit_eq
  intro i
  rw [Nat.testBit_land, Nat.testBit_lor]
  cases g.testBit i <;> cases s.testBit i <;> rfl

theorem lor_land_mono (g s x : Nat) (h : g &&& x = x) : (g ||| s) &&& x = x := by
  apply Nat.eq_of_testBit_eq
  intro i
  have h' := congrArg (fun n => n.testBit i) h
  simp only [Nat.testBit_land] at h'
  rw [Nat.testBit_land, Nat.testBit_lor]
  revert h'
  cases g.testBit i <;> cases s.testBit i <;> cases x.testBit i <;> simp

/-- What a successful `Add` does to every lookup, in terms of the slots the
loop reaches. -/
theorem Add_get (t t' : Tree) (s : SID) (p : IPNet) (a : IPv4) (h : t.Add s p = some t') :
    (covers p.IP p.prefixLen a (32 / bitslen) 0 bitslen → t'.Get a = t.Get a ||| s) ∧
    (¬ covers p.IP p.prefixLen a (32 / bitslen) 0 bitslen → t'.Get a = t.Get a) := by
  unfold Tree.Add at h
  simp only [Option.map_eq_some'] at h
  obtain ⟨r, hr, rfl⟩ := h
  rw [Get_eq, Get_eq]
  exact addLoop_get s p.IP p.prefixLen a _ _ _ _ _ hr

theorem Add_isSome (t : Tree) (s : SID) (p : IPNet) (hcan : p.canonical) :
    ∃ t', t.Add s p = some t' := by
  obtain ⟨r, hr⟩ := addLoop_isSome s p.IP p.prefixLen hcan 8 0 t.root rfl (Or.inl rfl)
  exact ⟨⟨r⟩, by unfold Tree.Add; simp only [Option.map_eq_some']; exact ⟨r, hr, rfl⟩⟩

theorem Add_canonical (t : Tree) (s : SID) (p : IPNet) (hcan : p.canonical) :
    ∃ t', t.Add s p = some t' ∧
      ∀ a, t'.Get a = if p.contains a then t.Get a ||| s else t.Get a := by
  obtain ⟨t', ht'⟩ := Add_isSome t s p hcan
  refine ⟨t', ht', fun a => ?_⟩
  have hiff := covers_iff_contains p.IP a p.prefixLen hcan
  obtain ⟨h1, h2⟩ := Add_get t t' s p a ht'
  by_cases hc : p.contains a
  · rw [if_pos hc]; exact h1 (hiff.2 hc)
  · rw [if_neg hc]; exact h2 (fun h => hc (hiff.1 h))

theorem Add_mono (t t' : Tree) (s : SID) (p : IPNet) (a : IPv4) (x : SID)
    (h : t.Add s p = some t') (hx : t.Get a &&& x = x) : t'.Get a &&& x = x := by
  obtain ⟨h1, h2⟩ := Add_get t t' s p a h
  by_cases hc : covers p.IP p.prefixLen a (32 / bitslen) 0 bitslen
  · rw [h1 hc]; exact lor_land_mono _ _ _ hx
  · rw [h2 hc]; exact hx

theorem addAll_mono (a : IPv4) (x : SID) : ∀ (es : List (SID × IPNet)) (t t' : Tree),
    addAll t es = some t' → t.Get a &&& x = x → t'.Get a &&& x = x := by
  intro es
  induction es with
  | nil => intro t t' h hx; simp only [addAll, Option.some.injEq] at h; subst h; exact hx
  | cons e es ih =>
    intro t t' h hx
    simp only [addAll, Option.bind_eq_some] at h
    obtain ⟨t1, h1, h2⟩ := h
    exact ih t1 t' h2 (Add_mono t t1 e.1 e.2 a x h1 hx)

theorem addAll_member (a : IPv4) : ∀ (es : List (SID × IPNet)) (t t' : Tree),
    addAll t es = some t' → ∀ e ∈ es, e.2.canonical → e.2.contains a →
      t'.Get a &&& e.1 = e.1 := by
  intro es
  induction es with
  | nil => intro t t' _ e he; simp at he
  | cons e0 es ih =>
    intro t t' h e he hcan hin
    simp only [addAll, Option.bind_eq_some] at h
    obtain ⟨t1, h1, h2⟩ := h
    rcases List.mem_cons.1 he with rfl | he'
    · apply addAll_mono a e.1 es t1 t' h2
      obtain ⟨u, hu, hg⟩ := Add_canonical t e.1 e.2 hcan
      rw [h1] at hu
      simp only [Option.some.injEq] at hu
      subst hu
      rw [hg a, if_pos hin]
      exact lor_land_self _ _
    · exact ih t1 t' h2 e he' hcan hin

theorem Get_New (a : IPv4) : New.Get a = 0 := by
  rw [Get_eq]; exact getFrom_zero a _ _

theorem addAll_exact : ∀ (es : List (SID × IPNet)) (t : Tree),
    (∀ e ∈ es, e.2.canonical) →
      ∃ t', addAll t es = some t' ∧ ∀ a,
        t'.Get a = t.Get a ||| orAll ((es.filter fun e => decide (e.2.contains a)).map Prod.fst) := by
  intro es
  induction es with
  | nil => intro t _; exact ⟨t, rfl, fun a => by simp [orAll]⟩
  | cons e es ih =>
    intro t hcan
    obtain ⟨t1, h1, hg1⟩ := Add_canonical t e.1 e.2 (hcan e (List.mem_cons_self _ _))
    obtain ⟨t', h2, hg2⟩ := ih t1 (fun e' he' => hcan e' (List.mem_cons_of_mem _ he'))
    refine ⟨t', by simp only [addAll, h1, Option.some_bind]; exact h2, fun a => ?_⟩
    rw [hg2 a, hg1 a]
    by_cases hc : e.2.contains a
    · rw [if_pos hc, List.filter_cons_of_pos (by simpa using hc), List.map_cons, orAll,
        Nat.lor_assoc]
    · rw [if_neg hc, List.filter_cons_of_neg (by simpa using hc)]

/-- C1 (as stated, for any 4-byte prefix address): it fails for the prefix
`16.0.0.0/3`, whose address has a set bit after the first 3 bits.  `Add`
marks the root slots 1 and 2; the address `0.0.0.0` shares its first 3 bits
with `16.0.0.0`, and `Get` reads the root slot 0, which is 0. -/
theorem C1_counterexample :
    (3 : Nat) ≤ 32 ∧ (cidr (ip4 16 0 0 0) 3).contains (ip4 0 0 0 0) ∧
      (addAll New [(1, cidr (ip4 16 0 0 0) 3)]).map (fun t => t.Get (ip4 0 0 0 0) &&& 1)
        = some 0 := by
  decide

/-- C1 (amended): in a tree built from `New` by a sequence of `Add` calls,
every added entry whose prefix is canonical is found by `Get` at every
address inside the prefix: `Get(a) & s = s`. -/
theorem C1_membership (entries : List (SID × IPNet)) (t : Tree)
    (hbuilt : addAll New entries = some t) (e : SID × IPNet) (he : e ∈ entries)
    (hcan : e.2.canonical) (a : IPv4) (ha : e.2.contains a) :
    t.Get a &&& e.1 = e.1 :=
  addAll_member a entries New t hbuilt e he hcan ha

theorem C1_membership_witness :
    ∃ t, addAll New [(4, cidr (ip4 10 0 0 0) 7), (1, cidr (ip4 10 192 170 0) 23)] = some t ∧
      t.Get (ip4 10 192 171 24) &&& 1 = 1 :=
  have hs : (addAll New [(4, cidr (ip4 10 0 0 0) 7), (1, cidr (ip4 10 192 170 0) 23)]).isSome
      = true := by decide
  ⟨_, (Option.some_get hs).symm,
    C1_membership _ _ (Option.some_get hs).symm (1, cidr (ip4 10 192 170 0) 23)
      (by simp) (by decide) (ip4 10 192 171 24) (by decide)⟩

/-- C2: after any sequence of `Add` calls with canonical prefixes on `New`,
`Get(a)` is the bitwise OR of the services of exactly the added prefixes that
contain `a`; it is 0 when no added prefix contains `a`. -/
theorem C2_exact (entries : List (SID × IPNet)) (hcan : ∀ e ∈ entries, e.2.canonical) :
    ∃ t, addAll New entries = some t ∧ ∀ a,
      t.Get a = orAll ((entries.filter fun e => decide (e.2.contains a)).map Prod.fst) ∧
      ((∀ e ∈ entries, ¬ e.2.contains a) → t.Get a = 0) := by
  obtain ⟨t, ht, hg⟩ := addAll_exact entries New hcan
  refine ⟨t, ht, fun a => ?_⟩
  have h1 : t.Get a = orAll ((entries.filter fun e => decide (e.2.contains a)).map Prod.fst) := by
    rw [hg a, Get_New, Nat.zero_or]
  refine ⟨h1, fun hout => ?_⟩
  rw [h1, List.filter_eq_nil_iff.2 (fun e he => by simpa using hout e he)]
  rfl

theorem C2_exact_witness :
    ∃ t, addAll New [(4, cidr (ip4 10 0 0 0) 7), (1, cidr (ip4 10 192 170 0) 23)] = some t ∧
      ∀ a, t.Get a = orAll (([(4, cidr (ip4 10 0 0 0) 7), (1, cidr (ip4 10 192 170 0) 23)].filter
          fun e => decide (e.2.contains a)).map Prod.fst) ∧
        ((∀ e ∈ [(4, cidr (ip4 10 0 0 0) 7), (1, cidr (ip4 10 192 170 0) 23)],
          ¬ e.2.contains a) → t.Get a = 0) :=
  C2_exact [(4, cidr (ip4 10 0 0 0) 7), (1, cidr (ip4 10 192 170 0) 23)] (by decide)

/-- C3: for every tree, `Add(s1, P1)` with a canonical prefix changes `Get(a)`
to `Get(a) | s1` for the addresses inside `P1` and leaves it as it was for the
others; so when `P1` contains `P2`, after adding both to the empty tree every
address inside `P2` looks up `s1 | s2`. -/
theorem C3_union (t : Tree) (s1 s2 : SID) (p1 p2 : IPNet) (h1 : p1.canonical)
    (h2 : p2.canonical) :
    (∃ t', t.Add s1 p1 = some t' ∧
      ∀ a, t'.Get a = if p1.contains a then t.Get a ||| s1 else t.Get a) ∧
    ((∀ a, p2.contains a → p1.contains a) →
      ∃ u, addAll New [(s1, p1), (s2, p2)] = some u ∧
        ∀ a, p2.contains a → u.Get a = s1 ||| s2) := by
  refine ⟨Add_canonical t s1 p1 h1, fun hsub => ?_⟩
  obtain ⟨u, hu, hg⟩ := addAll_exact [(s1, p1), (s2, p2)] New
    (by intro e he; simp at he; rcases he with rfl | rfl <;> assumption)
  refine ⟨u, hu, fun a ha => ?_⟩
  rw [hg a, Get_New, Nat.zero_or]
  simp [List.filter, ha, hsub a ha, orAll]

theorem C3_union_witness :
    (∃ t', New.Add 4 (cidr (ip4 10 0 0 0) 7) = some t' ∧
      ∀ a, t'.Get a = if (cidr (ip4 10 0 0 0) 7).contains a then New.Get a ||| 4
        else New.Get a) ∧
    ((∀ a, (cidr (ip4 10 192 170 0) 23).contains a → (cidr (ip4 10 0 0 0) 7).contains a) →
      ∃ u, addAll New [(4, cidr (ip4 10 0 0 0) 7), (1, cidr (ip4 10 192 170 0) 23)] = some u ∧
        ∀ a, (cidr (ip4 10 192 170 0) 23).contains a → u.Get a = 4 ||| 1) :=
  C3_union New 4 1 (cidr (ip4 10 0 0 0) 7) (cidr (ip4 10 192 170 0) 23) (by decide) (by decide)


/-! ### Remove -/

theorem land_land_self (x m : Nat) : (x &&& m) &&& m = x &&& m := by
  rw [Nat.land_assoc, Nat.and_self]

theorem lor_land_distrib (x y m : Nat) : (x ||| y) &&& m = (x &&& m) ||| (y &&& m) := by
  apply Nat.eq_of_testBit_eq
  intro i
  simp only [Nat.testBit_land, Nat.testBit_lor]
  cases x.testBit i <;> cases y.testBit i <;> cases m.testBit i <;> rfl

/-- The pruning step with `parent = node` (the descent stayed at the node)
assigns nil to a pointer of an empty node: it changes nothing. -/
theorem prune_self (n : treenode) (j : Fin 16) :
    (if n.isEmpty then n.setPtr j none else n) = n := by
  by_cases h : n.isEmpty = true
  · rw [if_pos h]
    have h2 := ((isEmpty_iff n).1 h).2
    apply treenode.ext
    · rfl
    · funext k
      simp only [ptrs_setPtr]
      by_cases hk : k = j
      · subst hk; rw [Function.update_same, h2]
      · rw [Function.update_noteq hk]
  · rw [if_neg h]

/-- The subtree `Get` continues into after the pruning step on a child. -/
theorem getFrom_pruned (a : IPv4) (fuel i : Nat) (c : treenode) :
    (if c.isEmpty then (none : Option treenode) else some c).elim 0 (getFrom a fuel i)
      = getFrom a fuel i c := by
  by_cases h : c.isEmpty = true
  · rw [if_pos h, getFrom_empty a fuel i c h]; rfl
  · rw [if_neg h]; rfl

theorem setPtr_pruned (node c : treenode) (j : Fin 16) :
    (if c.isEmpty then node.setPtr j none else node.setPtr j (some c)) =
      node.setPtr j (if c.isEmpty then none else some c) := by
  by_cases h : c.isEmpty = true
  · rw [if_pos h, if_pos h]
  · rw [if_neg h, if_neg h]

/-- One non-terminal iteration of the loop of `Remove` that finds a child. -/
theorem removeLoop_step_some (m : SID) (ip : IPv4) (L fuel i curLen : Nat) (node c : treenode)
    (hterm : ¬ curLen ≥ L) (hi : i + 1 < 32 / bitslen) (hp : node.ptrs (nib ip i) = some c) :
    removeLoop m ip L (fuel + 1) i curLen node =
      (removeLoop m ip L fuel (i + 1) (curLen + bitslen) c).map
          fun c' => node.setPtr (nib ip i) (if c'.isEmpty then none else some c') := by
  rw [removeLoop, if_neg hterm, if_pos hi]
  simp only [hp, setPtr_pruned]

/-- One non-terminal iteration of the loop of `Remove` that finds no child. -/
theorem removeLoop_step_none (m : SID) (ip : IPv4) (L fuel i curLen : Nat) (node : treenode)
    (hterm : ¬ curLen ≥ L) (hi : i + 1 < 32 / bitslen) (hp : node.ptrs (nib ip i) = none) :
    removeLoop m ip L (fuel + 1) i curLen node =
      removeLoop m ip L fuel (i + 1) (curLen + bitslen) node := by
  rw [removeLoop, if_neg hterm, if_pos hi]
  simp only [hp, prune_self, Option.map_id']

theorem removeLoop_mask (m : SID) (ip : IPv4) (L : Nat) (a : IPv4) :
    ∀ (fuel i curLen : Nat) (node node' : treenode),
      removeLoop m ip L fuel i curLen node = some node' →
        ∀ g k, getFrom a g k node' &&& m = getFrom a g k node &&& m := by
  intro fuel
  induction fuel with
  | zero =>
    intro i curLen node node' h
    simp only [removeLoop, Option.some.injEq] at h
    subst h
    intro g k; rfl
  | succ fuel ih =>
    intro i curLen node node' h g k
    by_cases hterm : curLen ≥ L
    · rw [removeLoop, if_pos hterm] at h
      obtain ⟨hp, hs⟩ := updRange_some _ _ _ _ _ h
      cases g with
      | zero => rfl
      | succ g =>
        rw [getFrom_succ, getFrom_succ, hp, lor_land_distrib, lor_land_distrib, hs]
        split
        · rw [land_land_self]
        · rfl
    · by_cases hi : i + 1 < 32 / bitslen
      · cases hp : node.ptrs (nib ip i) with
        | none =>
          rw [removeLoop_step_none m ip L fuel i curLen node hterm hi hp] at h
          exact ih _ _ _ _ h g k
        | some c =>
          rw [removeLoop_step_some m ip L fuel i curLen node c hterm hi hp] at h
          simp only [Option.map_eq_some'] at h
          obtain ⟨c', hc', rfl⟩ := h
          cases g with
          | zero => rfl
          | succ g =>
            rw [getFrom_succ, getFrom_succ]
            simp only [srvs_setPtr, ptrs_setPtr]
            by_cases hn : nib a k = nib ip i
            · rw [hn, Function.update_same, getFrom_pruned, hp, Option.elim_some,
                lor_land_distrib, lor_land_distrib, ih _ _ _ _ hc' g (k + 1)]
            · rw [Function.update_noteq hn]
      · rw [removeLoop, if_neg hterm, if_neg hi] at h
        exact absurd h (by simp)

theorem removeLoop_isSome (m : SID) (ip : IPv4) (L : Nat) (hcan : (IPNet.mk ip L).canonical) :
    ∀ (fuel i : Nat) (node : treenode), i + fuel = 8 → (i = 0 ∨ 4 * i < L) →
      ∃ node', removeLoop m ip L fuel i (4 * (i + 1)) node = some node' := by
  intro fuel
  induction fuel with
  | zero => intro i node _ _; exact ⟨node, rfl⟩
  | succ fuel ih =>
    intro i node h1 h2
    have hL : L ≤ 32 := hcan.1
    by_cases hterm : 4 * (i + 1) ≥ L
    · rw [removeLoop, if_pos hterm]
      simp only []
      obtain ⟨e, hle⟩ := range_ok ip L i hcan (by omega) h2 hterm
      rw [e]
      exact updRange_isSome _ _ _ _ hle
    · have hi : i + 1 < 32 / bitslen := by unfold bitslen; omega
      have e : 4 * (i + 1) + bitslen = 4 * (i + 1 + 1) := by unfold bitslen; omega
      cases hp : node.ptrs (nib ip i) with
      | none =>
        rw [removeLoop_step_none m ip L fuel i _ node hterm hi hp, e]
        exact ih (i + 1) node (by omega) (Or.inr (by omega))
      | some c =>
        rw [removeLoop_step_some m ip L fuel i _ node c hterm hi hp, e]
        obtain ⟨c', hc'⟩ := ih (i + 1) c (by omega) (Or.inr (by omega))
        simp only [hc', Option.map_some']
        exact ⟨_, rfl⟩

theorem Remove_isSome (t : Tree) (s : SID) (p : IPNet) (hcan : p.canonical) :
    ∃ t', t.Remove s p = some t' := by
  obtain ⟨r, hr⟩ := removeLoop_isSome (MaxUint64 ^^^ s) p.IP p.prefixLen hcan 8 0 t.root rfl
    (Or.inl rfl)
  exact ⟨⟨r⟩, by unfold Tree.Remove; simp only [Option.map_eq_some']; exact ⟨r, hr, rfl⟩⟩

theorem Remove_root (t t' : Tree) (s : SID) (p : IPNet) (h : t.Remove s p = some t') :
    removeLoop (MaxUint64 ^^^ s) p.IP p.prefixLen (32 / bitslen) 0 bitslen t.root
      = some t'.root := by
  unfold Tree.Remove at h
  simp only [Option.map_eq_some'] at h
  obtain ⟨r, hr, rfl⟩ := h
  exact hr

/-- C8: `Remove(s, P)` with a canonical prefix, added before or not, returns,
and every lookup agrees with the lookup before on every bit outside `s`:
`Get_after(a) & ^s = Get_before(a) & ^s`, with `^s = MaxUint64 ^ s`. -/
theorem C8_remove_other_bits (t : Tree) (s : SID) (p : IPNet) (hcan : p.canonical) :
    ∃ t', t.Remove s p = some t' ∧
      ∀ a, t'.Get a &&& (MaxUint64 ^^^ s) = t.Get a &&& (MaxUint64 ^^^ s) := by
  obtain ⟨t', ht'⟩ := Remove_isSome t s p hcan
  refine ⟨t', ht', fun a => ?_⟩
  rw [Get_eq, Get_eq]
  exact removeLoop_mask _ p.IP p.prefixLen a _ _ _ _ _ (Remove_root t t' s p ht') _ _

theorem C8_remove_other_bits_witness :
    (∃ t t', New.Add 1 (cidr (ip4 10 192 171 24) 32) = some t ∧
      t.Remove 2 (cidr (ip4 10 192 171 24) 32) = some t' ∧
      ∀ a, t'.Get a &&& (MaxUint64 ^^^ 2) = t.Get a &&& (MaxUint64 ^^^ 2)) ∧
    ((New.Add 1 (cidr (ip4 10 192 171 24) 32)).bind
      (fun t => t.Remove 2 (cidr (ip4 10 192 171 24) 32))).map
        (fun t => t.Get (ip4 10 192 171 24)) = some 1 :=
  have hs : (New.Add 1 (cidr (ip4 10 192 171 24) 32)).isSome = true := by decide
  have hr := C8_remove_other_bits ((New.Add 1 (cidr (ip4 10 192 171 24) 32)).get hs) 2
    (cidr (ip4 10 192 171 24) 32) (by decide)
  ⟨⟨_, hr.choose, (Option.some_get hs).symm, hr.choose_spec.1, hr.choose_spec.2⟩, by decide⟩

/-- C5: the claim holds in the documentation of `Add` (a /24 and a /23 of the
same service are both held) and fails in the code: `1.1.0.0/23` and
`1.1.1.0/24` end in the same node (level 5) and share the slot 1, so removing
either one clears the slot the other one needs.  After adding both with
service 1, `Remove(1, 1.1.1.0/24)` leaves `Get(1.1.1.0) = 0` although
`1.1.1.0` is inside the /23; and `Remove(1, 1.1.0.0/23)` instead leaves
`Get(1.1.1.0) = 0` although `1.1.1.0` is inside the /24. -/
theorem C5_shared_slot :
    (cidr (ip4 1 1 0 0) 23).canonical ∧ (cidr (ip4 1 1 1 0) 24).canonical ∧
    (cidr (ip4 1 1 0 0) 23).contains (ip4 1 1 1 0) ∧
    (cidr (ip4 1 1 1 0) 24).contains (ip4 1 1 1 0) ∧
    ((addAll New [(1, cidr (ip4 1 1 0 0) 23), (1, cidr (ip4 1 1 1 0) 24)]).map
      (fun t => t.Get (ip4 1 1 1 0))) = some 1 ∧
    (((addAll New [(1, cidr (ip4 1 1 0 0) 23), (1, cidr (ip4 1 1 1 0) 24)]).bind
      (fun t => t.Remove 1 (cidr (ip4 1 1 1 0) 24))).map (fun t => t.Get (ip4 1 1 1 0))) = some 0 ∧
    (((addAll New [(1, cidr (ip4 1 1 0 0) 23), (1, cidr (ip4 1 1 1 0) 24)]).bind
      (fun t => t.Remove 1 (cidr (ip4 1 1 0 0) 23))).map (fun t => t.Get (ip4 1 1 1 0))) = some 0 := by
  decide

/-- C10 (as stated, for any 4-byte prefix address): it fails for `240.0.0.0/0`:
the terminal range at the root is `start = 15`, `end = 15 + 16 - 1 = 30`, and
both `Add` and `Remove` index `srvs[16]`. -/
theorem C10_counterexample :
    (0 : Nat) ≤ 32 ∧ getSubstring (ip4 240 0 0 0) 0 = 15 ∧
      rangeEnd (getSubstring (ip4 240 0 0 0) 0) bitslen 0 = 30 ∧
      (New.Add 1 (cidr (ip4 240 0 0 0) 0)).isNone = true ∧
      (New.Remove 1 (cidr (ip4 240 0 0 0) 0)).isNone = true := by
  decide

/-- C10 (amended): for every tree, every service and every canonical prefix
(length at most 32, no address bit set after the prefix), `Add` and `Remove`
run to completion without an index out of range; at the terminal level `i`
the slot range satisfies `start ≤ end < 16`, and at every level before it the
index `pathlen = i + 1` that `Remove` writes in `indpath` is below 8. -/
theorem C10_no_failure (t : Tree) (s : SID) (p : IPNet) (hcan : p.canonical) :
    (∃ t', t.Add s p = some t') ∧ (∃ t', t.Remove s p = some t') ∧
    (∀ i, i < 32 / bitslen → (i = 0 ∨ bitslen * i < p.prefixLen) →
      p.prefixLen ≤ bitslen * (i + 1) →
        getSubstring p.IP i ≤ rangeEnd (getSubstring p.IP i) (bitslen * (i + 1)) p.prefixLen ∧
        rangeEnd (getSubstring p.IP i) (bitslen * (i + 1)) p.prefixLen < 16) ∧
    (∀ i, i < 32 / bitslen → bitslen * (i + 1) < p.prefixLen → i + 1 < 32 / bitslen) := by
  refine ⟨Add_isSome t s p hcan, Remove_isSome t s p hcan, ?_, ?_⟩
  · intro i hi hlo hhi
    unfold bitslen at hi hlo hhi ⊢
    obtain ⟨e, hle⟩ := range_ok p.IP p.prefixLen i hcan (by omega) hlo hhi
    have hpos : 0 < 2 ^ (4 * (i + 1) - p.prefixLen) := by positivity
    omega
  · intro i hi hlt
    have hL : p.prefixLen ≤ 32 := hcan.1
    unfold bitslen at hi hlt ⊢
    omega

theorem C10_no_failure_witness :
    (∃ t', New.Add 1 (cidr (ip4 10 192 170 0) 23) = some t') ∧
    (∃ t', New.Remove 1 (cidr (ip4 10 192 170 0) 23) = some t') ∧
    (∀ i, i < 32 / bitslen → (i = 0 ∨ bitslen * i < (cidr (ip4 10 192 170 0) 23).prefixLen) →
      (cidr (ip4 10 192 170 0) 23).prefixLen ≤ bitslen * (i + 1) →
        getSubstring (cidr (ip4 10 192 170 0) 23).IP i ≤
          rangeEnd (getSubstring (cidr (ip4 10 192 170 0) 23).IP i) (bitslen * (i + 1))
            (cidr (ip4 10 192 170 0) 23).prefixLen ∧
        rangeEnd (getSubstring (cidr (ip4 10 192 170 0) 23).IP i) (bitslen * (i + 1))
          (cidr (ip4 10 192 170 0) 23).prefixLen < 16) ∧
    (∀ i, i < 32 / bitslen → bitslen * (i + 1) < (cidr (ip4 10 192 170 0) 23).prefixLen →
      i + 1 < 32 / bitslen) :=
  C10_no_failure New 1 (cidr (ip4 10 192 170 0) 23) (by decide)


/-! ### Add followed by Remove -/

theorem testBit_MaxUint64 (b : Nat) : MaxUint64.testBit b = decide (b < 64) := by
  unfold MaxUint64
  exact Nat.testBit_two_pow_sub_one 64 b

theorem testBit_uint64_high (x b : Nat) (hx : x < 2 ^ 64) (hb : 64 ≤ b) : x.testBit b = false :=
  Nat.testBit_eq_false_of_lt (lt_of_lt_of_le hx (Nat.pow_le_pow_right (by norm_num) hb))

/-- Setting the bits of `s` and clearing them again gives back a `uint64`
value that had none of them. -/
theorem lor_land_xor (x s : Nat) (hx : x < 2 ^ 64) (hs : s < 2 ^ 64) (h : x &&& s = 0) :
    (x ||| s) &&& (MaxUint64 ^^^ s) = x := by
  apply Nat.eq_of_testBit_eq
  intro b
  have h' := congrArg (fun n => n.testBit b) h
  simp only [Nat.testBit_land, Nat.zero_testBit] at h'
  rw [Nat.testBit_land, Nat.testBit_lor, Nat.testBit_xor, testBit_MaxUint64]
  by_cases hb : b < 64
  · rw [decide_eq_true hb]
    revert h'
    cases x.testBit b <;> cases s.testBit b <;> simp
  · rw [decide_eq_false hb, testBit_uint64_high x b hx (by omega),
      testBit_uint64_high s b hs (by omega)]
    rfl

theorem Valid_zero : treenode.zero.Valid :=
  treenode.Valid.mk _ _ (fun _ => by norm_num) (fun _ _ h => by simp at h)

theorem Valid_srvs {n : treenode} (h : n.Valid) (j : Fin 16) : n.srvs j < 2 ^ 64 := by
  cases h with
  | mk srvs ptrs h1 _ => exact h1 j

theorem Valid_child {n c : treenode} (h : n.Valid) {j : Fin 16} (hc : n.ptrs j = some c) :
    c.Valid := by
  cases h with
  | mk srvs ptrs _ h2 => exact h2 j c hc

theorem Valid_getD {n : treenode} (h : n.Valid) (j : Fin 16) :
    ((n.ptrs j).getD treenode.zero).Valid := by
  cases hc : n.ptrs j with
  | none => exact Valid_zero
  | some c => exact Valid_child h hc

theorem freshFor_zero (s : SID) (ip : IPv4) (L : Nat) :
    ∀ fuel i curLen, freshFor s ip L fuel i curLen treenode.zero := by
  intro fuel
  cases fuel with
  | zero => intro i curLen; trivial
  | succ fuel =>
    intro i curLen
    unfold freshFor
    split
    · intro j _ _; simp
    · intro c hc; simp at hc

theorem freshFor_getD (s : SID) (ip : IPv4) (L fuel i curLen : Nat) (node : treenode)
    (j : Fin 16) (h : ∀ c, node.ptrs j = some c → freshFor s ip L fuel i curLen c) :
    freshFor s ip L fuel i curLen ((node.ptrs j).getD treenode.zero) := by
  cases hc : node.ptrs j with
  | none => exact freshFor_zero s ip L fuel i curLen
  | some c => exact h c hc

/-- `Add` followed by `Remove` of the same entry, from any level of the
descent: the lookups from that level on are the ones before. -/
theorem add_remove_loop (s : SID) (ip : IPv4) (L : Nat) (hcan : (IPNet.mk ip L).canonical)
    (hs : s < 2 ^ 64) :
    ∀ (fuel i : Nat) (node : treenode), i + fuel = 8 → (i = 0 ∨ 4 * i < L) → node.Valid →
      freshFor s ip L fuel i (4 * (i + 1)) node →
      ∃ n1 n2, addLoop s ip L fuel i (4 * (i + 1)) node = some n1 ∧
        removeLoop (MaxUint64 ^^^ s) ip L fuel i (4 * (i + 1)) n1 = some n2 ∧
        ∀ a, getFrom a fuel i n2 = getFrom a fuel i node := by
  intro fuel
  induction fuel with
  | zero => intro i node _ _ _ _; exact ⟨node, node, rfl, rfl, fun _ => rfl⟩
  | succ fuel ih =>
    intro i node h1 h2 hv hf
    have hL : L ≤ 32 := hcan.1
    by_cases hterm : 4 * (i + 1) ≥ L
    · obtain ⟨e, hle⟩ := range_ok ip L i hcan (by omega) h2 hterm
      have hpos : 0 < 2 ^ (4 * (i + 1) - L) := by positivity
      obtain ⟨n1, hn1⟩ : ∃ n1, addLoop s ip L (fuel + 1) i (4 * (i + 1)) node = some n1 := by
        rw [addLoop, if_pos hterm]; simp only []; rw [e]; exact updRange_isSome _ _ _ _ hle
      obtain ⟨n2, hn2⟩ : ∃ n2, removeLoop (MaxUint64 ^^^ s) ip L (fuel + 1) i (4 * (i + 1)) n1
          = some n2 := by
        rw [removeLoop, if_pos hterm]; simp only []; rw [e]; exact updRange_isSome _ _ _ _ hle
      refine ⟨n1, n2, hn1, hn2, fun a => ?_⟩
      rw [addLoop, if_pos hterm] at hn1
      rw [removeLoop, if_pos hterm] at hn2
      obtain ⟨hp1, hs1⟩ := updRange_some _ _ _ _ _ hn1
      obtain ⟨hp2, hs2⟩ := updRange_some _ _ _ _ _ hn2
      rw [freshFor, if_pos hterm] at hf
      have heq : n2 = node := by
        apply treenode.ext
        · funext k
          rw [hs2 k, hs1 k]
          split
          · rename_i hk
            exact lor_land_xor _ _ (Valid_srvs hv k) hs (hf k hk.1 (by omega))
          · rfl
        · rw [hp2, hp1]
      rw [heq]
    · have hi : i + 1 < 32 / bitslen := by unfold bitslen; omega
      have e : 4 * (i + 1) + bitslen = 4 * (i + 1 + 1) := by unfold bitslen; omega
      rw [freshFor, if_neg hterm, e] at hf
      obtain ⟨c1, c2, hc1, hc2, hg⟩ := ih (i + 1) ((node.ptrs (nib ip i)).getD treenode.zero)
        (by omega) (Or.inr (by omega)) (Valid_getD hv _) (freshFor_getD _ _ _ _ _ _ _ _ hf)
      refine ⟨node.setPtr (nib ip i) (some c1),
        (node.setPtr (nib ip i) (some c1)).setPtr (nib ip i)
          (if c2.isEmpty then none else some c2), ?_, ?_, fun a => ?_⟩
      · rw [addLoop, if_neg hterm]; simp only []; rw [e, hc1]; rfl
      · rw [removeLoop_step_some _ ip L fuel i _ _ c1 hterm hi (by simp), e, hc2]; rfl
      · rw [getFrom_succ, getFrom_succ]
        simp only [srvs_setPtr, ptrs_setPtr, Function.update_idem]
        by_cases hn : nib a i = nib ip i
        · rw [hn, Function.update_same, getFrom_pruned, hg, getFrom_getD]
        · rw [Function.update_noteq hn]

/-- C4 (as stated, for every tree): it fails when the tree already holds the
entry.  On `t = New + Add(1, 10.192.171.24/32)`, where `Get(10.192.171.24) = 1`,
`Add(1, 10.192.171.24/32)` followed by `Remove(1, 10.192.171.24/32)` leaves
`Get(10.192.171.24) = 0`. -/
theorem C4_counterexample :
    (cidr (ip4 10 192 171 24) 32).canonical ∧
    (New.Add 1 (cidr (ip4 10 192 171 24) 32)).map (fun t => t.Get (ip4 10 192 171 24)) = some 1 ∧
    (((New.Add 1 (cidr (ip4 10 192 171 24) 32)).bind
        (fun t => t.Add 1 (cidr (ip4 10 192 171 24) 32))).bind
        (fun t => t.Remove 1 (cidr (ip4 10 192 171 24) 32))).map
      (fun t => t.Get (ip4 10 192 171 24)) = some 0 := by
  decide

/-- C4 (amended): for every tree (with `uint64` slots), every service `s` and
every canonical prefix `P` such that no slot in the terminal range of `P`
along the path of `P` in the tree carries a bit of `s`, `Add(s, P)` followed
immediately by `Remove(s, P)` gives a tree on which `Get` returns, for every
address, what it returned before. -/
theorem C4_round_trip (t : Tree) (s : SID) (p : IPNet) (hcan : p.canonical) (hs : s < 2 ^ 64)
    (hv : t.root.Valid)
    (hfresh : freshFor s p.IP p.prefixLen (32 / bitslen) 0 bitslen t.root) :
    ∃ t1 t2, t.Add s p = some t1 ∧ t1.Remove s p = some t2 ∧ ∀ a, t2.Get a = t.Get a := by
  obtain ⟨n1, n2, h1, h2, hg⟩ := add_remove_loop s p.IP p.prefixLen hcan hs 8 0 t.root rfl
    (Or.inl rfl) hv hfresh
  refine ⟨⟨n1⟩, ⟨n2⟩, ?_, ?_, fun a => ?_⟩
  · unfold Tree.Add; rw [show (32 / bitslen) = 8 from rfl, show bitslen = 4 * (0 + 1) from rfl, h1]
    rfl
  · unfold Tree.Remove
    rw [show (32 / bitslen) = 8 from rfl, show bitslen = 4 * (0 + 1) from rfl, h2]; rfl
  · rw [Get_eq, Get_eq]; exact hg a

theorem C4_round_trip_witness :
    ∃ t1 t2, (Tree.mk (.mk (fun j => if j = 10 then 4 else 0) (fun _ => none))).Add 1
        (cidr (ip4 160 0 0 0) 4) = some t1 ∧
      t1.Remove 1 (cidr (ip4 160 0 0 0) 4) = some t2 ∧
      ∀ a, t2.Get a = (Tree.mk (.mk (fun j => if j = 10 then 4 else 0) (fun _ => none))).Get a :=
  C4_round_trip (Tree.mk (.mk (fun j => if j = 10 then 4 else 0) (fun _ => none))) 1
    (cidr (ip4 160 0 0 0) 4) (by decide) (by norm_num)
    (treenode.Valid.mk _ _ (fun j => by split <;> norm_num) (fun _ _ h => by simp at h))
    (by
      show freshFor 1 (ip4 160 0 0 0) 4 8 0 4 _
      rw [freshFor, if_pos (by norm_num)]
      decide)


/-! ### Remove of a prefix that was not added -/

theorem IPv4.eq_of_bigEndianUint32 {a b : IPv4} (h : bigEndianUint32 a = bigEndianUint32 b) : a = b := by
  obtain ⟨a0, a1, a2, a3⟩ := a
  obtain ⟨b0, b1, b2, b3⟩ := b
  unfold bigEndianUint32 at h
  simp only at h
  have := a0.isLt; have := a1.isLt; have := a2.isLt; have := a3.isLt
  have := b0.isLt; have := b1.isLt; have := b2.isLt; have := b3.isLt
  have e0 : a0 = b0 := Fin.ext (by omega)
  have e1 : a1 = b1 := Fin.ext (by omega)
  have e2 : a2 = b2 := Fin.ext (by omega)
  have e3 : a3 = b3 := Fin.ext (by omega)
  subst e0 e1 e2 e3
  rfl

/-- Two addresses with the same eight bit groups are the same address. -/
theorem nib_inj (a b : IPv4) (h : ∀ j, j < 8 → nib b j = nib a j) : b = a := by
  apply IPv4.eq_of_bigEndianUint32
  have ha := bigEndianUint32_lt a
  have hb := bigEndianUint32_lt b
  have h0 := congrArg Fin.val (h 0 (by norm_num))
  have h1 := congrArg Fin.val (h 1 (by norm_num))
  have h2 := congrArg Fin.val (h 2 (by norm_num))
  have h3 := congrArg Fin.val (h 3 (by norm_num))
  have h4 := congrArg Fin.val (h 4 (by norm_num))
  have h5 := congrArg Fin.val (h 5 (by norm_num))
  have h6 := congrArg Fin.val (h 6 (by norm_num))
  have h7 := congrArg Fin.val (h 7 (by norm_num))
  simp only [nib_val] at h0 h1 h2 h3 h4 h5 h6 h7
  rw [getSubstring_eq _ _ (by norm_num), getSubstring_eq _ _ (by norm_num)] at h0 h1 h2 h3 h4 h5 h6 h7
  norm_num at h0 h1 h2 h3 h4 h5 h6 h7
  omega

theorem canonical_32 (A : IPv4) : (IPNet.mk A 32).canonical := by
  unfold IPNet.canonical
  exact ⟨le_refl _, by simp [Nat.mod_one]⟩

theorem covers_self (A : IPv4) (g k : Nat) (h : k + g = 8) (hk : k < 8) :
    covers A 32 A g k (4 * (k + 1)) := by
  rw [covers_iff A A 32 (canonical_32 A) g k h (by omega)]

/-- The nodes `Add(id, A/32)` makes below the root of the empty tree: the
lookup of `A` from each of them is `id`. -/
theorem chain_get (id : SID) (A : IPv4) (g k : Nat) (N : treenode) (h : k + g = 8) (hk : k < 8)
    (hN : addLoop id A 32 g k (4 * (k + 1)) treenode.zero = some N) :
    getFrom A g k N = id := by
  rw [(addLoop_get id A 32 A g k _ _ _ hN).1 (covers_self A g k h hk), getFrom_zero, Nat.zero_or]

theorem chain_last (id : SID) (A : IPv4) (N : treenode)
    (hN : addLoop id A 32 1 7 (4 * (7 + 1)) treenode.zero = some N) :
    N.ptrs = (fun _ => none) ∧ ∀ j, N.srvs j = if j = nib A 7 then id else 0 := by
  rw [addLoop, if_pos (by norm_num)] at hN
  obtain ⟨hp, hs⟩ := updRange_some _ _ _ _ _ hN
  obtain ⟨e, _⟩ := range_ok A 32 7 (canonical_32 A) (by norm_num) (by norm_num) (by norm_num)
  refine ⟨hp, fun j => ?_⟩
  rw [hs j, e]
  by_cases hj : j = nib A 7
  · subst hj
    rw [if_pos ⟨le_refl _, by rw [nib_val]; norm_num⟩, if_pos rfl]
    simp
  · have : j.val ≠ getSubstring A 7 := fun e' => hj (Fin.ext e')
    rw [if_neg (by norm_num; omega), if_neg hj]
    rfl

theorem chain_inner (id : SID) (A : IPv4) (g k : Nat) (N : treenode) (hk : k < 7)
    (hN : addLoop id A 32 (g + 1) k (4 * (k + 1)) treenode.zero = some N) :
    ∃ C, addLoop id A 32 g (k + 1) (4 * (k + 1 + 1)) treenode.zero = some C ∧
      N = treenode.zero.setPtr (nib A k) (some C) := by
  rw [addLoop, if_neg (by omega)] at hN
  simp only [Option.map_eq_some'] at hN
  obtain ⟨C, hC, rfl⟩ := hN
  have e : 4 * (k + 1) + bitslen = 4 * (k + 1 + 1) := by unfold bitslen; omega
  rw [e] at hC
  exact ⟨C, hC, rfl⟩

/-- Clearing bits in the slots of a node whose slots are all 0 changes nothing. -/
theorem updRange_land_zero (m : SID) (n j : Nat) (N N' : treenode) (hz : ∀ k, N.srvs k = 0)
    (h : updRange (fun x => x &&& m) n j N = some N') : N' = N := by
  obtain ⟨hp, hs⟩ := updRange_some _ _ _ _ _ h
  apply treenode.ext
  · funext k
    rw [hs k]
    split
    · rw [hz k]; simp
    · rfl
  · exact hp

/-- `Remove(id, B/32)` on the nodes made by `Add(id, A/32)`, at the level `i`
of the descent and on the node of depth `k ≤ i`: unless the descent has
followed `A` so far (`k = i`) and `B` has the bit groups of `A` from `i` on,
the lookup of `A` from the node stays `id`. -/
theorem remove_other_chain (id : SID) (A B : IPv4) :
    ∀ (fuel i : Nat), i + fuel = 8 → ∀ (k g : Nat) (N N' : treenode), k ≤ i → k + g = 8 →
      addLoop id A 32 g k (4 * (k + 1)) treenode.zero = some N →
      ¬ (k = i ∧ ∀ j, i ≤ j → j < 8 → nib B j = nib A j) →
      removeLoop (MaxUint64 ^^^ id) B 32 fuel i (4 * (i + 1)) N = some N' →
      getFrom A g k N' = id := by
  intro fuel
  induction fuel with
  | zero =>
    intro i hi k g N N' hki hkg hN hpro hrem
    simp only [removeLoop, Option.some.injEq] at hrem
    subst hrem
    have hk : k < 8 := by
      by_contra hcon
      exact hpro ⟨by omega, fun j h1 h2 => by omega⟩
    exact chain_get id A g k N hkg hk hN
  | succ fuel ih =>
    intro i hi k g N N' hki hkg hN hpro hrem
    by_cases hterm : 4 * (i + 1) ≥ 32
    · have hi7 : i = 7 := by omega
      subst hi7
      rw [removeLoop, if_pos hterm] at hrem
      by_cases hk7 : k = 7
      · subst hk7
        have hg : g = 1 := by omega
        subst hg
        obtain ⟨hp, hs⟩ := chain_last id A N hN
        obtain ⟨hp', hs'⟩ := updRange_some _ _ _ _ _ hrem
        obtain ⟨e, _⟩ := range_ok B 32 7 (canonical_32 B) (by norm_num) (by norm_num)
          (by norm_num)
        have hne : nib B 7 ≠ nib A 7 := by
          intro heq
          apply hpro
          refine ⟨rfl, fun j h1 h2 => ?_⟩
          have : j = 7 := by omega
          subst this; exact heq
        have hne' : getSubstring A 7 ≠ getSubstring B 7 := by
          intro heq; exact hne (Fin.ext heq.symm)
        rw [getFrom_succ, hp', hp, hs' (nib A 7), e, hs (nib A 7), if_pos rfl,
          if_neg (by rw [nib_val]; norm_num; omega)]
        simp
      · have hz : ∀ j, N.srvs j = 0 := by
          obtain ⟨g', rfl⟩ : ∃ g', g = g' + 1 := ⟨g - 1, by omega⟩
          obtain ⟨C, _, rfl⟩ := chain_inner id A g' k N (by omega) hN
          intro j; rfl
        rw [updRange_land_zero _ _ _ N N' hz hrem]
        exact chain_get id A g k N hkg (by omega) hN
    · have hi' : i + 1 < 32 / bitslen := by unfold bitslen; omega
      have e : 4 * (i + 1) + bitslen = 4 * (i + 1 + 1) := by unfold bitslen; omega
      obtain ⟨g', rfl⟩ : ∃ g', g = g' + 1 := ⟨g - 1, by omega⟩
      obtain ⟨C, hC, rfl⟩ := chain_inner id A g' k N (by omega) hN
      by_cases hn : nib B i = nib A k
      · have hp : (treenode.zero.setPtr (nib A k) (some C)).ptrs (nib B i) = some C := by
          rw [hn]; simp
        rw [removeLoop_step_some _ B 32 fuel i _ _ C hterm hi' hp, e] at hrem
        simp only [Option.map_eq_some'] at hrem
        obtain ⟨c', hc', rfl⟩ := hrem
        have hget := ih (i + 1) (by omega) (k + 1) g' C c' (by omega) (by omega) hC
          (by
            rintro ⟨hke, hall⟩
            apply hpro
            have hki' : k = i := by omega
            refine ⟨hki', fun j h1 h2 => ?_⟩
            by_cases hj : j = i
            · subst hj; rw [hn, hki']
            · exact hall j (by omega) h2) hc'
        rw [getFrom_succ]
        simp only [srvs_setPtr, ptrs_setPtr, Function.update_idem, hn, Function.update_same,
          getFrom_pruned, hget]
        simp
      · have hp : (treenode.zero.setPtr (nib A k) (some C)).ptrs (nib B i) = none := by
          simp only [ptrs_setPtr]
          rw [Function.update_noteq hn]; rfl
        rw [removeLoop_step_none _ B 32 fuel i _ _ hterm hi' hp, e] at hrem
        exact ih (i + 1) (by omega) k (g' + 1) _ N' (by omega) hkg hN
          (by rintro ⟨hke, _⟩; omega) hrem

/-- C7: for every service `id` and every two distinct addresses `A` and `B`,
on `New() + Add(id, A/32)` the call `Remove(id, B/32)` returns and leaves
`Get(A) = id`. -/
theorem C7_disjoint_removal (id : SID) (A B : IPv4) (hne : A ≠ B) :
    ∃ t t', New.Add id (cidr A 32) = some t ∧ t.Remove id (cidr B 32) = some t' ∧
      t'.Get A = id := by
  obtain ⟨t, ht⟩ := Add_isSome New id (cidr A 32) (canonical_32 A)
  obtain ⟨t', ht'⟩ := Remove_isSome t id (cidr B 32) (canonical_32 B)
  refine ⟨t, t', ht, ht', ?_⟩
  have hN : addLoop id A 32 8 0 (4 * (0 + 1)) treenode.zero = some t.root := by
    unfold Tree.Add at ht
    simp only [Option.map_eq_some'] at ht
    obtain ⟨r, hr, rfl⟩ := ht
    exact hr
  rw [Get_eq]
  exact remove_other_chain id A B 8 0 rfl 0 8 t.root t'.root (le_refl _) rfl hN
    (by
      rintro ⟨_, hall⟩
      exact hne (nib_inj A B (fun j hj => hall j (Nat.zero_le _) hj)).symm)
    (Remove_root t t' id (cidr B 32) ht')

theorem C7_disjoint_removal_witness :
    ∃ t t', New.Add 1 (cidr (ip4 10 192 171 24) 32) = some t ∧
      t.Remove 1 (cidr (ip4 10 192 171 25) 32) = some t' ∧ t'.Get (ip4 10 192 171 24) = 1 :=
  C7_disjoint_removal 1 (ip4 10 192 171 24) (ip4 10 192 171 25) (by decide)


/-! ### The invariants of a tree built by `Add` and `Remove` -/

theorem Pruned_zero : treenode.zero.Pruned :=
  treenode.Pruned.mk _ _ (fun _ _ h => by simp at h) (fun _ _ h => by simp at h)

theorem Pruned_of (n : treenode) (h1 : ∀ j c, n.ptrs j = some c → c.isEmpty = false)
    (h2 : ∀ j c, n.ptrs j = some c → c.Pruned) : n.Pruned := by
  cases n with
  | mk srvs ptrs => exact treenode.Pruned.mk srvs ptrs h1 h2

theorem Pruned_nonempty {n c : treenode} (h : n.Pruned) {j : Fin 16} (hc : n.ptrs j = some c) :
    c.isEmpty = false := by
  cases h with
  | mk srvs ptrs h1 _ => exact h1 j c hc

theorem Pruned_child {n c : treenode} (h : n.Pruned) {j : Fin 16} (hc : n.ptrs j = some c) :
    c.Pruned := by
  cases h with
  | mk srvs ptrs _ h2 => exact h2 j c hc

theorem Covered_of (S : List (SID × IPNet)) (k : Nat) (n : treenode)
    (h1 : ∀ (j : Fin 16) (b : Nat), (n.srvs j).testBit b = true →
        ∃ e ∈ S, e.2.prefixLen ≤ 4 * (k + 1) ∧ getSubstring e.2.IP k ≤ j.val ∧
          j.val ≤ rangeEnd (getSubstring e.2.IP k) (4 * (k + 1)) e.2.prefixLen ∧
          e.1.testBit b = true)
    (h2 : ∀ j c, n.ptrs j = some c → Covered (S.filter (routed k j)) (k + 1) c) :
    Covered S k n := by
  cases n with
  | mk srvs ptrs => exact Covered.mk S k srvs ptrs h1 h2

theorem Covered_slot {S : List (SID × IPNet)} {k : Nat} {n : treenode} (h : Covered S k n)
    (j : Fin 16) (b : Nat) (hb : (n.srvs j).testBit b = true) :
    ∃ e ∈ S, e.2.prefixLen ≤ 4 * (k + 1) ∧ getSubstring e.2.IP k ≤ j.val ∧
      j.val ≤ rangeEnd (getSubstring e.2.IP k) (4 * (k + 1)) e.2.prefixLen ∧
      e.1.testBit b = true := by
  cases h with
  | mk _ _ srvs ptrs h1 _ => exact h1 j b hb

theorem Covered_child {S : List (SID × IPNet)} {k : Nat} {n c : treenode} (h : Covered S k n)
    {j : Fin 16} (hc : n.ptrs j = some c) : Covered (S.filter (routed k j)) (k + 1) c := by
  cases h with
  | mk _ _ srvs ptrs _ h2 => exact h2 j c hc

theorem Covered_zero (S : List (SID × IPNet)) (k : Nat) : Covered S k treenode.zero :=
  Covered.mk S k _ _ (fun _ _ h => by simp at h) (fun _ _ h => by simp at h)

theorem Covered_mono {S : List (SID × IPNet)} {k : Nat} {n : treenode} (h : Covered S k n) :
    ∀ S' : List (SID × IPNet), (∀ e ∈ S, e ∈ S') → Covered S' k n := by
  induction h with
  | mk S k srvs ptrs h1 _ ih =>
    intro S' hsub
    refine Covered.mk S' k srvs ptrs ?_ ?_
    · intro j b hb
      obtain ⟨e, he, h⟩ := h1 j b hb
      exact ⟨e, hsub e he, h⟩
    · intro j c hc
      apply ih j c hc
      intro e he
      rw [List.mem_filter] at he ⊢
      exact ⟨hsub e he.1, he.2⟩

theorem Covered_getD {S : List (SID × IPNet)} {k : Nat} {n : treenode} (h : Covered S k n)
    (j : Fin 16) : Covered (S.filter (routed k j)) (k + 1) ((n.ptrs j).getD treenode.zero) := by
  cases hc : n.ptrs j with
  | none => exact Covered_zero _ _
  | some c => exact Covered_child h hc

theorem Pruned_getD {n : treenode} (h : n.Pruned) (j : Fin 16) :
    ((n.ptrs j).getD treenode.zero).Pruned := by
  cases hc : n.ptrs j with
  | none => exact Pruned_zero
  | some c => exact Pruned_child h hc

theorem routed_iff (k : Nat) (j : Fin 16) (e : SID × IPNet) :
    routed k j e = true ↔ 4 * (k + 1) < e.2.prefixLen ∧ nib e.2.IP k = j := by
  unfold routed; simp

/-- A tree without set bits and without empty nodes below the root is the
empty root. -/
theorem Pruned_Covered_nil {n : treenode} (hp : n.Pruned) :
    ∀ k, Covered [] k n → n = treenode.zero := by
  induction hp with
  | mk srvs ptrs h1 _ ih =>
    intro k hc
    apply treenode.ext
    · funext j
      apply Nat.eq_of_testBit_eq
      intro b
      simp only [srvs_mk, srvs_zero, Nat.zero_testBit]
      by_contra hb
      obtain ⟨e, he, _⟩ := Covered_slot hc j b (by simpa using hb)
      simp at he
    · funext j
      simp only [ptrs_mk, ptrs_zero]
      cases hj : ptrs j with
      | none => rfl
      | some c =>
        have hcz := ih j c hj (k + 1) (by simpa using Covered_child hc (j := j) (c := c) hj)
        have hne := h1 j c hj
        rw [hcz] at hne
        exact absurd hne (by decide)


theorem Covered_addLoop (s : SID) (ip : IPv4) (L : Nat) :
    ∀ (fuel k : Nat) (S : List (SID × IPNet)) (n n' : treenode),
      addLoop s ip L fuel k (4 * (k + 1)) n = some n' → Covered S k n →
        Covered ((s, IPNet.mk ip L) :: S) k n' := by
  intro fuel
  induction fuel with
  | zero =>
    intro k S n n' h hc
    simp only [addLoop, Option.some.injEq] at h
    subst h
    exact Covered_mono hc _ (fun e he => List.mem_cons_of_mem _ he)
  | succ fuel ih =>
    intro k S n n' h hc
    by_cases hterm : 4 * (k + 1) ≥ L
    · rw [addLoop, if_pos hterm] at h
      obtain ⟨hp, hs⟩ := updRange_some _ _ _ _ _ h
      apply Covered_of
      · intro j b hb
        rw [hs j] at hb
        by_cases hr : getSubstring ip k ≤ j.val ∧ j.val < getSubstring ip k +
            (rangeEnd (getSubstring ip k) (4 * (k + 1)) L + 1 - getSubstring ip k)
        · rw [if_pos hr, Nat.testBit_lor, Bool.or_eq_true] at hb
          rcases hb with hb | hb
          · obtain ⟨e, he, h'⟩ := Covered_slot hc j b hb
            exact ⟨e, List.mem_cons_of_mem _ he, h'⟩
          · exact ⟨_, List.mem_cons_self _ _, hterm, hr.1, by simp only []; omega, hb⟩
        · rw [if_neg hr] at hb
          obtain ⟨e, he, h'⟩ := Covered_slot hc j b hb
          exact ⟨e, List.mem_cons_of_mem _ he, h'⟩
      · intro j c hj
        rw [hp] at hj
        apply Covered_mono (Covered_child hc hj)
        intro e he
        rw [List.mem_filter] at he ⊢
        exact ⟨List.mem_cons_of_mem _ he.1, he.2⟩
    · rw [addLoop, if_neg hterm] at h
      simp only [Option.map_eq_some'] at h
      obtain ⟨c1, hc1, rfl⟩ := h
      have e : 4 * (k + 1) + bitslen = 4 * (k + 1 + 1) := by unfold bitslen; omega
      rw [e] at hc1
      have hrec := ih (k + 1) _ _ _ hc1 (Covered_getD hc (nib ip k))
      apply Covered_of
      · intro j b hb
        obtain ⟨e, he, h'⟩ := Covered_slot hc j b hb
        exact ⟨e, List.mem_cons_of_mem _ he, h'⟩
      · intro j c hj
        simp only [ptrs_setPtr] at hj
        by_cases hjn : j = nib ip k
        · subst hjn
          rw [Function.update_same, Option.some.injEq] at hj
          subst hj
          have hr : routed k (nib ip k) (s, IPNet.mk ip L) = true :=
            (routed_iff _ _ _).2 ⟨by show 4 * (k + 1) < L; omega, rfl⟩
          rw [List.filter_cons_of_pos hr]
          exact hrec
        · rw [Function.update_noteq hjn] at hj
          apply Covered_mono (Covered_child hc hj)
          intro e he
          rw [List.mem_filter] at he ⊢
          exact ⟨List.mem_cons_of_mem _ he.1, he.2⟩

theorem testBit_land_left {x m b : Nat} (h : (x &&& m).testBit b = true) : x.testBit b = true := by
  rw [Nat.testBit_land, Bool.and_eq_true] at h
  exact h.1

/-- Any run of the loop of `Remove`, on a node of any depth: the slots only
lose bits and the nodes are only detached. -/
theorem Covered_removeLoop (m : SID) (ip : IPv4) (L : Nat) :
    ∀ (fuel i curLen : Nat) (n n' : treenode),
      removeLoop m ip L fuel i curLen n = some n' →
        ∀ (S : List (SID × IPNet)) (k : Nat), Covered S k n → Covered S k n' := by
  intro fuel
  induction fuel with
  | zero =>
    intro i curLen n n' h S k hc
    simp only [removeLoop, Option.some.injEq] at h
    subst h
    exact hc
  | succ fuel ih =>
    intro i curLen n n' h S k hc
    by_cases hterm : curLen ≥ L
    · rw [removeLoop, if_pos hterm] at h
      obtain ⟨hp, hs⟩ := updRange_some _ _ _ _ _ h
      apply Covered_of
      · intro j b hb
        rw [hs j] at hb
        split at hb
        · exact Covered_slot hc j b (testBit_land_left hb)
        · exact Covered_slot hc j b hb
      · intro j c hj
        rw [hp] at hj
        exact Covered_child hc hj
    · by_cases hi : i + 1 < 32 / bitslen
      · cases hp : n.ptrs (nib ip i) with
        | none =>
          rw [removeLoop_step_none m ip L fuel i curLen n hterm hi hp] at h
          exact ih _ _ _ _ h S k hc
        | some c =>
          rw [removeLoop_step_some m ip L fuel i curLen n c hterm hi hp] at h
          simp only [Option.map_eq_some'] at h
          obtain ⟨c', hc', rfl⟩ := h
          apply Covered_of
          · intro j b hb
            exact Covered_slot hc j b hb
          · intro j d hj
            simp only [ptrs_setPtr] at hj
            by_cases hjn : j = nib ip i
            · subst hjn
              rw [Function.update_same] at hj
              split at hj
              · exact absurd hj (by simp)
              · rw [Option.some.injEq] at hj
                subst hj
                exact ih _ _ _ _ hc' _ _ (Covered_child hc hp)
            · rw [Function.update_noteq hjn] at hj
              exact Covered_child hc hj
      · rw [removeLoop, if_neg hterm, if_neg hi] at h
        exact absurd h (by simp)

theorem testBit_mask {s b : Nat} (hs : s < 2 ^ 64) (h1 : (MaxUint64 ^^^ s).testBit b = true)
    (h2 : s.testBit b = true) : False := by
  rw [Nat.testBit_xor, testBit_MaxUint64, h2] at h1
  by_cases hb : b < 64
  · rw [decide_eq_true hb] at h1; exact absurd h1 (by decide)
  · rw [testBit_uint64_high s b hs (by omega)] at h2; exact absurd h2 (by decide)

/-- `Remove(s, ip/L)` from the root (the descent has followed the prefix to
the node of depth `k`): the entry removed is no longer needed to cover the
slots. -/
theorem Covered_remove (s : SID) (ip : IPv4) (L : Nat) (hs : s < 2 ^ 64) (hL : L ≤ 32) :
    ∀ (fuel k : Nat) (S S' : List (SID × IPNet)) (n n' : treenode),
      k + fuel = 8 → (k = 0 ∨ 4 * k < L) →
      removeLoop (MaxUint64 ^^^ s) ip L fuel k (4 * (k + 1)) n = some n' →
      Covered S k n → (∀ e ∈ S, e = (s, IPNet.mk ip L) ∨ e ∈ S') → Covered S' k n' := by
  intro fuel
  induction fuel with
  | zero =>
    intro k S S' n n' hk1 hk2 h hc hsub
    omega
  | succ fuel ih =>
    intro k S S' n n' hk1 hk2 h hc hsub
    by_cases hterm : 4 * (k + 1) ≥ L
    · rw [removeLoop, if_pos hterm] at h
      obtain ⟨hp, hsl⟩ := updRange_some _ _ _ _ _ h
      apply Covered_of
      · intro j b hb
        rw [hsl j] at hb
        by_cases hr : getSubstring ip k ≤ j.val ∧ j.val < getSubstring ip k +
            (rangeEnd (getSubstring ip k) (4 * (k + 1)) L + 1 - getSubstring ip k)
        · rw [if_pos hr, Nat.testBit_land, Bool.and_eq_true] at hb
          obtain ⟨e, he, h1, h2, h3, h4⟩ := Covered_slot hc j b hb.1
          rcases hsub e he with rfl | he'
          · exact absurd (testBit_mask hs hb.2 h4) id
          · exact ⟨e, he', h1, h2, h3, h4⟩
        · rw [if_neg hr] at hb
          obtain ⟨e, he, h1, h2, h3, h4⟩ := Covered_slot hc j b hb
          rcases hsub e he with rfl | he'
          · exact absurd ⟨h2, by simp only [] at h3; omega⟩ hr
          · exact ⟨e, he', h1, h2, h3, h4⟩
      · intro j c hj
        rw [hp] at hj
        apply Covered_mono (Covered_child hc hj)
        intro e he
        rw [List.mem_filter] at he ⊢
        rcases hsub e he.1 with rfl | he'
        · have := ((routed_iff _ _ _).1 he.2).1
          simp only [] at this
          omega
        · exact ⟨he', he.2⟩
    · have hslots : ∀ (j : Fin 16) (b : Nat), (n.srvs j).testBit b = true →
          ∃ e ∈ S', e.2.prefixLen ≤ 4 * (k + 1) ∧ getSubstring e.2.IP k ≤ j.val ∧
            j.val ≤ rangeEnd (getSubstring e.2.IP k) (4 * (k + 1)) e.2.prefixLen ∧
            e.1.testBit b = true := by
        intro j b hb
        obtain ⟨e, he, h1, h2, h3, h4⟩ := Covered_slot hc j b hb
        rcases hsub e he with rfl | he'
        · simp only [] at h1; omega
        · exact ⟨e, he', h1, h2, h3, h4⟩
      have hothers : ∀ j c, j ≠ nib ip k → n.ptrs j = some c →
          Covered (S'.filter (routed k j)) (k + 1) c := by
        intro j c hjn hj
        apply Covered_mono (Covered_child hc hj)
        intro e he
        rw [List.mem_filter] at he ⊢
        rcases hsub e he.1 with rfl | he'
        · exact absurd ((routed_iff _ _ _).1 he.2).2.symm hjn
        · exact ⟨he', he.2⟩
      by_cases hi : k + 1 < 32 / bitslen
      · have e : 4 * (k + 1) + bitslen = 4 * (k + 1 + 1) := by unfold bitslen; omega
        cases hp : n.ptrs (nib ip k) with
        | none =>
          rw [removeLoop_step_none _ ip L fuel k _ n hterm hi hp] at h
          apply Covered_removeLoop _ ip L _ _ _ _ _ h
          refine Covered_of _ _ _ hslots ?_
          intro j c hj
          exact hothers j c (fun hjn => by rw [hjn, hp] at hj; exact absurd hj (by simp)) hj
        | some c =>
          rw [removeLoop_step_some _ ip L fuel k _ n c hterm hi hp, e] at h
          simp only [Option.map_eq_some'] at h
          obtain ⟨c', hc', rfl⟩ := h
          have hrec := ih (k + 1) (S.filter (routed k (nib ip k)))
            (S'.filter (routed k (nib ip k))) c c' (by omega) (Or.inr (by omega)) hc'
            (Covered_child hc hp)
            (by
              intro e he
              rw [List.mem_filter] at he
              rcases hsub e he.1 with rfl | he'
              · exact Or.inl rfl
              · exact Or.inr (List.mem_filter.2 ⟨he', he.2⟩))
          refine Covered_of S' k _ (fun j b hb => hslots j b hb) ?_
          intro j d hj
          simp only [ptrs_setPtr] at hj
          by_cases hjn : j = nib ip k
          · subst hjn
            rw [Function.update_same] at hj
            split at hj
            · exact absurd hj (by simp)
            · rw [Option.some.injEq] at hj
              subst hj
              exact hrec
          · rw [Function.update_noteq hjn] at hj
            exact hothers j d hjn hj
      · rw [removeLoop, if_neg hterm, if_neg hi] at h
        exact absurd h (by simp)


theorem isEmpty_false_of_ptr {n c : treenode} {j : Fin 16} (h : n.ptrs j = some c) :
    n.isEmpty = false := by
  cases hn : n.isEmpty with
  | false => rfl
  | true =>
    have := ((isEmpty_iff n).1 hn).2 j
    rw [h] at this
    exact absurd this (by simp)

theorem isEmpty_false_of_srv {n : treenode} {j : Fin 16} (h : n.srvs j ≠ 0) :
    n.isEmpty = false := by
  cases hn : n.isEmpty with
  | false => rfl
  | true => exact absurd (((isEmpty_iff n).1 hn).1 j) h

theorem lor_ne_zero (x s : Nat) (hs : s ≠ 0) : x ||| s ≠ 0 := by
  intro h
  apply hs
  apply Nat.eq_of_testBit_eq
  intro b
  have h' := congrArg (fun n => n.testBit b) h
  simp only [Nat.testBit_lor, Nat.zero_testBit, Bool.or_eq_false_iff] at h'
  rw [h'.2, Nat.zero_testBit]

/-- `Add` of a non-zero service leaves no empty node: the node it is at
becomes non-empty and so does every node it creates. -/
theorem Pruned_addLoop (s : SID) (ip : IPv4) (L : Nat) (hs : s ≠ 0)
    (hcan : (IPNet.mk ip L).canonical) :
    ∀ (fuel k : Nat) (n n' : treenode), k + fuel = 8 → (k = 0 ∨ 4 * k < L) →
      addLoop s ip L fuel k (4 * (k + 1)) n = some n' → n.Pruned →
        n'.Pruned ∧ n'.isEmpty = false := by
  have hL : L ≤ 32 := hcan.1
  intro fuel
  induction fuel with
  | zero => intro k n n' hk1 hk2 _ _; omega
  | succ fuel ih =>
    intro k n n' hk1 hk2 h hp
    by_cases hterm : 4 * (k + 1) ≥ L
    · rw [addLoop, if_pos hterm] at h
      obtain ⟨hpt, hsl⟩ := updRange_some _ _ _ _ _ h
      obtain ⟨e, hle⟩ := range_ok ip L k hcan (by omega) hk2 hterm
      have hpos : 0 < 2 ^ (4 * (k + 1) - L) := by positivity
      constructor
      · apply Pruned_of
        · intro j c hj; rw [hpt] at hj; exact Pruned_nonempty hp hj
        · intro j c hj; rw [hpt] at hj; exact Pruned_child hp hj
      · have hlt : getSubstring ip k < 16 := by omega
        apply isEmpty_false_of_srv (j := ⟨getSubstring ip k, hlt⟩)
        rw [hsl, if_pos ⟨le_refl _, by simp only []; omega⟩]
        exact lor_ne_zero _ _ hs
    · rw [addLoop, if_neg hterm] at h
      simp only [Option.map_eq_some'] at h
      obtain ⟨c1, hc1, rfl⟩ := h
      have e : 4 * (k + 1) + bitslen = 4 * (k + 1 + 1) := by unfold bitslen; omega
      rw [e] at hc1
      obtain ⟨hp1, hne1⟩ := ih (k + 1) _ _ (by omega) (Or.inr (by omega)) hc1
        (Pruned_getD hp (nib ip k))
      constructor
      · apply Pruned_of
        · intro j c hj
          simp only [ptrs_setPtr] at hj
          by_cases hjn : j = nib ip k
          · subst hjn
            rw [Function.update_same, Option.some.injEq] at hj
            subst hj; exact hne1
          · rw [Function.update_noteq hjn] at hj
            exact Pruned_nonempty hp hj
        · intro j c hj
          simp only [ptrs_setPtr] at hj
          by_cases hjn : j = nib ip k
          · subst hjn
            rw [Function.update_same, Option.some.injEq] at hj
            subst hj; exact hp1
          · rw [Function.update_noteq hjn] at hj
            exact Pruned_child hp hj
      · exact isEmpty_false_of_ptr (j := nib ip k) (c := c1) (by simp)

/-- Any run of the loop of `Remove` leaves no empty node below the node it is at. -/
theorem Pruned_removeLoop (m : SID) (ip : IPv4) (L : Nat) :
    ∀ (fuel i curLen : Nat) (n n' : treenode),
      removeLoop m ip L fuel i curLen n = some n' → n.Pruned → n'.Pruned := by
  intro fuel
  induction fuel with
  | zero =>
    intro i curLen n n' h hp
    simp only [removeLoop, Option.some.injEq] at h
    subst h; exact hp
  | succ fuel ih =>
    intro i curLen n n' h hp
    by_cases hterm : curLen ≥ L
    · rw [removeLoop, if_pos hterm] at h
      obtain ⟨hpt, _⟩ := updRange_some _ _ _ _ _ h
      apply Pruned_of
      · intro j c hj; rw [hpt] at hj; exact Pruned_nonempty hp hj
      · intro j c hj; rw [hpt] at hj; exact Pruned_child hp hj
    · by_cases hi : i + 1 < 32 / bitslen
      · cases hpn : n.ptrs (nib ip i) with
        | none =>
          rw [removeLoop_step_none m ip L fuel i curLen n hterm hi hpn] at h
          exact ih _ _ _ _ h hp
        | some c =>
          rw [removeLoop_step_some m ip L fuel i curLen n c hterm hi hpn] at h
          simp only [Option.map_eq_some'] at h
          obtain ⟨c', hc', rfl⟩ := h
          have hp' := ih _ _ _ _ hc' (Pruned_child hp hpn)
          apply Pruned_of
          · intro j d hj
            simp only [ptrs_setPtr] at hj
            by_cases hjn : j = nib ip i
            · subst hjn
              rw [Function.update_same] at hj
              split at hj
              · exact absurd hj (by simp)
              · rename_i hne
                rw [Option.some.injEq] at hj
                subst hj
                simpa using hne
            · rw [Function.update_noteq hjn] at hj
              exact Pruned_nonempty hp hj
          · intro j d hj
            simp only [ptrs_setPtr] at hj
            by_cases hjn : j = nib ip i
            · subst hjn
              rw [Function.update_same] at hj
              split at hj
              · exact absurd hj (by simp)
              · rw [Option.some.injEq] at hj
                subst hj
                exact hp'
            · rw [Function.update_noteq hjn] at hj
              exact Pruned_child hp hj
      · rw [removeLoop, if_neg hterm, if_neg hi] at h
        exact absurd h (by simp)

/-- Every bit a lookup returns is a bit of an entry of the covering list that
the loops reach for the address. -/
theorem Covered_get (a : IPv4) :
    ∀ (g k : Nat) (S : List (SID × IPNet)) (n : treenode), Covered S k n →
      ∀ b, (getFrom a g k n).testBit b = true →
        ∃ e ∈ S, covers e.2.IP e.2.prefixLen a g k (4 * (k + 1)) ∧ e.1.testBit b = true := by
  intro g
  induction g with
  | zero => intro k S n _ b hb; simp [getFrom] at hb
  | succ g ih =>
    intro k S n hc b hb
    rw [getFrom_succ, Nat.testBit_lor, Bool.or_eq_true] at hb
    rcases hb with hb | hb
    · obtain ⟨e, he, h1, h2, h3, h4⟩ := Covered_slot hc (nib a k) b hb
      refine ⟨e, he, ?_, h4⟩
      rw [covers, if_pos h1]
      exact ⟨h2, h3⟩
    · cases hp : n.ptrs (nib a k) with
      | none => rw [hp] at hb; simp at hb
      | some c =>
        rw [hp, Option.elim_some] at hb
        obtain ⟨e, he, h1, h2⟩ := ih (k + 1) _ c (Covered_child hc hp) b hb
        rw [List.mem_filter, routed_iff] at he
        refine ⟨e, he.1, ?_, h2⟩
        rw [covers, if_neg (by omega)]
        have e' : 4 * (k + 1) + bitslen = 4 * (k + 1 + 1) := by unfold bitslen; omega
        rw [e']
        exact ⟨he.2.2.symm, h1⟩


/-! ### Removing every entry -/

theorem Add_root (t t' : Tree) (s : SID) (p : IPNet) (h : t.Add s p = some t') :
    addLoop s p.IP p.prefixLen 8 0 (4 * (0 + 1)) t.root = some t'.root := by
  unfold Tree.Add at h
  simp only [Option.map_eq_some'] at h
  obtain ⟨r, hr, rfl⟩ := h
  exact hr

theorem addAll_covered : ∀ (es : List (SID × IPNet)) (t t' : Tree) (S : List (SID × IPNet)),
    addAll t es = some t' → Covered S 0 t.root →
      ∀ S' : List (SID × IPNet), (∀ e ∈ S, e ∈ S') → (∀ e ∈ es, e ∈ S') →
        Covered S' 0 t'.root := by
  intro es
  induction es with
  | nil =>
    intro t t' S h hc S' h1 _
    simp only [addAll, Option.some.injEq] at h
    subst h
    exact Covered_mono hc S' h1
  | cons e es ih =>
    intro t t' S h hc S' h1 h2
    simp only [addAll, Option.bind_eq_some] at h
    obtain ⟨t1, ht1, ht'⟩ := h
    have hc1 := Covered_addLoop e.1 e.2.IP e.2.prefixLen 8 0 S _ _ (Add_root t t1 _ _ ht1) hc
    apply ih t1 t' _ ht' hc1 S'
    · intro x hx
      rcases List.mem_cons.1 hx with rfl | hx'
      · exact h2 _ (List.mem_cons_self _ _)
      · exact h1 x hx'
    · intro x hx
      exact h2 x (List.mem_cons_of_mem _ hx)

theorem addAll_pruned : ∀ (es : List (SID × IPNet)) (t t' : Tree),
    addAll t es = some t' → (∀ e ∈ es, e.2.canonical) → (∀ e ∈ es, e.1 ≠ 0) →
      t.root.Pruned → t'.root.Pruned := by
  intro es
  induction es with
  | nil =>
    intro t t' h _ _ hp
    simp only [addAll, Option.some.injEq] at h
    subst h; exact hp
  | cons e es ih =>
    intro t t' h hcan hnz hp
    simp only [addAll, Option.bind_eq_some] at h
    obtain ⟨t1, ht1, ht'⟩ := h
    have hp1 := (Pruned_addLoop e.1 e.2.IP e.2.prefixLen (hnz e (List.mem_cons_self _ _))
      (hcan e (List.mem_cons_self _ _)) 8 0 _ _ rfl (Or.inl rfl) (Add_root t t1 _ _ ht1) hp).1
    exact ih t1 t' ht' (fun x hx => hcan x (List.mem_cons_of_mem _ hx))
      (fun x hx => hnz x (List.mem_cons_of_mem _ hx)) hp1

theorem removeAll_covered : ∀ (rem : List (SID × IPNet)) (t : Tree),
    (∀ e ∈ rem, e.2.canonical) → (∀ e ∈ rem, e.1 < 2 ^ 64) →
    Covered rem 0 t.root → t.root.Pruned →
      ∃ t', removeAll t rem = some t' ∧ Covered [] 0 t'.root ∧ t'.root.Pruned := by
  intro rem
  induction rem with
  | nil => intro t _ _ hc hp; exact ⟨t, rfl, hc, hp⟩
  | cons e rem ih =>
    intro t hcan h64 hc hp
    obtain ⟨t1, ht1⟩ := Remove_isSome t e.1 e.2 (hcan e (List.mem_cons_self _ _))
    have hr := Remove_root t t1 e.1 e.2 ht1
    have hc1 : Covered rem 0 t1.root :=
      Covered_remove e.1 e.2.IP e.2.prefixLen (h64 e (List.mem_cons_self _ _))
        (hcan e (List.mem_cons_self _ _)).1 8 0 (e :: rem) rem _ _ rfl (Or.inl rfl) hr hc
        (fun x hx => List.mem_cons.1 hx)
    have hp1 := Pruned_removeLoop _ _ _ _ _ _ _ _ hr hp
    obtain ⟨t', ht', hc', hp'⟩ := ih t1 (fun x hx => hcan x (List.mem_cons_of_mem _ hx))
      (fun x hx => h64 x (List.mem_cons_of_mem _ hx)) hc1 hp1
    exact ⟨t', by simp only [removeAll, ht1, Option.some_bind]; exact ht', hc', hp'⟩

/-- C6: after adding a list of entries (non-zero `uint64` service, canonical
prefix) to `New()` and calling `Remove` once for each of them, in any order,
the root is empty, `Get` returns 0 for every address and the tree is equal to
`New()`. -/
theorem C6_full_removal (entries rem : List (SID × IPNet))
    (hcan : ∀ e ∈ entries, e.2.canonical) (hnz : ∀ e ∈ entries, e.1 ≠ 0)
    (h64 : ∀ e ∈ entries, e.1 < 2 ^ 64) (hperm : rem.Perm entries) :
    ∃ t t', addAll New entries = some t ∧ removeAll t rem = some t' ∧
      t'.root.isEmpty = true ∧ (∀ a, t'.Get a = 0) ∧ t' = New := by
  obtain ⟨t, ht, _⟩ := addAll_exact entries New hcan
  have hc : Covered rem 0 t.root :=
    addAll_covered entries New t [] ht (Covered_zero _ _) rem (fun e he => by simp at he)
      (fun e he => hperm.mem_iff.2 he)
  have hp : t.root.Pruned := addAll_pruned entries New t ht hcan hnz Pruned_zero
  obtain ⟨t', ht', hc', hp'⟩ := removeAll_covered rem t
    (fun e he => hcan e (hperm.mem_iff.1 he)) (fun e he => h64 e (hperm.mem_iff.1 he)) hc hp
  have hz : t'.root = treenode.zero := Pruned_Covered_nil hp' 0 hc'
  have hnew : t' = New := by
    cases t' with
    | mk r => simp only at hz; subst hz; rfl
  refine ⟨t, t', ht, ht', ?_, ?_, hnew⟩
  · rw [hz]; decide
  · intro a; rw [hnew]; exact Get_New a

theorem C6_full_removal_witness :
    ∃ t t', addAll New [(1, cidr (ip4 10 192 171 24) 32), (2, cidr (ip4 10 0 0 0) 7)] = some t ∧
      removeAll t [(2, cidr (ip4 10 0 0 0) 7), (1, cidr (ip4 10 192 171 24) 32)] = some t' ∧
      t'.root.isEmpty = true ∧ (∀ a, t'.Get a = 0) ∧ t' = New :=
  C6_full_removal [(1, cidr (ip4 10 192 171 24) 32), (2, cidr (ip4 10 0 0 0) 7)]
    [(2, cidr (ip4 10 0 0 0) 7), (1, cidr (ip4 10 192 171 24) 32)]
    (by decide) (by decide) (by decide) (List.Perm.swap _ _ [])


/-! ### Removing one of several disjoint prefixes -/

theorem hasPath_addLoop_self (s : SID) (ip : IPv4) (L : Nat) :
    ∀ (fuel i curLen : Nat) (n n' : treenode),
      addLoop s ip L fuel i curLen n = some n' → hasPath ip L fuel i curLen n' := by
  intro fuel
  induction fuel with
  | zero => intro i curLen n n' _; trivial
  | succ fuel ih =>
    intro i curLen n n' h
    by_cases hterm : curLen ≥ L
    · rw [hasPath, if_pos hterm]; trivial
    · rw [addLoop, if_neg hterm] at h
      simp only [Option.map_eq_some'] at h
      obtain ⟨c1, hc1, rfl⟩ := h
      rw [hasPath, if_neg hterm]
      exact ⟨c1, by simp, ih _ _ _ _ hc1⟩

theorem hasPath_addLoop_keep (s : SID) (ip ip' : IPv4) (L L' : Nat) :
    ∀ (fuel i curLen : Nat) (n n' : treenode), hasPath ip L fuel i curLen n →
      addLoop s ip' L' fuel i curLen n = some n' → hasPath ip L fuel i curLen n' := by
  intro fuel
  induction fuel with
  | zero => intro i curLen n n' _ _; trivial
  | succ fuel ih =>
    intro i curLen n n' hp h
    by_cases hterm : curLen ≥ L
    · rw [hasPath, if_pos hterm]; trivial
    · rw [hasPath, if_neg hterm] at hp ⊢
      obtain ⟨c, hc, hpc⟩ := hp
      by_cases hterm' : curLen ≥ L'
      · rw [addLoop, if_pos hterm'] at h
        obtain ⟨hpt, _⟩ := updRange_some _ _ _ _ _ h
        exact ⟨c, by rw [hpt]; exact hc, hpc⟩
      · rw [addLoop, if_neg hterm'] at h
        simp only [Option.map_eq_some'] at h
        obtain ⟨c1, hc1, rfl⟩ := h
        by_cases hn : nib ip i = nib ip' i
        · rw [← hn, hc, Option.getD_some] at hc1
          exact ⟨c1, by rw [hn]; simp, ih _ _ _ _ hpc hc1⟩
        · exact ⟨c, by simp only [ptrs_setPtr]; rw [Function.update_noteq hn]; exact hc, hpc⟩

theorem addAll_hasPath_keep (ip : IPv4) (L : Nat) :
    ∀ (es : List (SID × IPNet)) (t t' : Tree), addAll t es = some t' →
      hasPath ip L 8 0 (4 * (0 + 1)) t.root → hasPath ip L 8 0 (4 * (0 + 1)) t'.root := by
  intro es
  induction es with
  | nil =>
    intro t t' h hp
    simp only [addAll, Option.some.injEq] at h
    subst h; exact hp
  | cons e es ih =>
    intro t t' h hp
    simp only [addAll, Option.bind_eq_some] at h
    obtain ⟨t1, ht1, ht'⟩ := h
    exact ih t1 t' ht' (hasPath_addLoop_keep _ _ _ _ _ _ _ _ _ _ hp (Add_root t t1 _ _ ht1))

theorem addAll_hasPath : ∀ (es : List (SID × IPNet)) (t t' : Tree), addAll t es = some t' →
    ∀ e ∈ es, hasPath e.2.IP e.2.prefixLen 8 0 (4 * (0 + 1)) t'.root := by
  intro es
  induction es with
  | nil => intro t t' _ e he; simp at he
  | cons e0 es ih =>
    intro t t' h e he
    simp only [addAll, Option.bind_eq_some] at h
    obtain ⟨t1, ht1, ht'⟩ := h
    rcases List.mem_cons.1 he with rfl | he'
    · exact addAll_hasPath_keep _ _ es t1 t' ht'
        (hasPath_addLoop_self _ _ _ _ _ _ _ _ (Add_root t t1 _ _ ht1))
    · exact ih t1 t' ht' e he'

/-- `Remove` of a prefix whose path exists changes no lookup of an address
the loop does not reach. -/
theorem removeLoop_outside (m : SID) (ip : IPv4) (L : Nat) (a : IPv4) :
    ∀ (fuel i curLen : Nat) (n n' : treenode), hasPath ip L fuel i curLen n →
      removeLoop m ip L fuel i curLen n = some n' → ¬ covers ip L a fuel i curLen →
        getFrom a fuel i n' = getFrom a fuel i n := by
  intro fuel
  induction fuel with
  | zero => intro i curLen n n' _ _ _; rfl
  | succ fuel ih =>
    intro i curLen n n' hp h hcov
    by_cases hterm : curLen ≥ L
    · rw [removeLoop, if_pos hterm] at h
      rw [covers, if_pos hterm] at hcov
      obtain ⟨hpt, hsl⟩ := updRange_some _ _ _ _ _ h
      rw [getFrom_succ, getFrom_succ, hpt, hsl, if_neg (by rw [nib_val]; omega)]
    · rw [hasPath, if_neg hterm] at hp
      rw [covers, if_neg hterm] at hcov
      obtain ⟨c, hc, hpc⟩ := hp
      by_cases hi : i + 1 < 32 / bitslen
      · rw [removeLoop_step_some m ip L fuel i curLen n c hterm hi hc] at h
        simp only [Option.map_eq_some'] at h
        obtain ⟨c', hc', rfl⟩ := h
        rw [getFrom_succ, getFrom_succ]
        simp only [srvs_setPtr, ptrs_setPtr]
        by_cases hn : nib a i = nib ip i
        · rw [hn, Function.update_same, getFrom_pruned, hc, Option.elim_some,
            ih _ _ _ _ hpc hc' (fun h' => hcov ⟨hn, h'⟩)]
        · rw [Function.update_noteq hn]
      · rw [removeLoop, if_neg hterm, if_neg hi] at h
        exact absurd h (by simp)

/-- C9: after adding entries with canonical, pairwise disjoint prefixes to
`New()`, `Remove` of one of them makes `Get` return 0 on every address inside
its prefix and leaves `Get` as it was on every address outside it. -/
theorem C9_local_removal (entries : List (SID × IPNet))
    (hcan : ∀ e ∈ entries, e.2.canonical)
    (hdisj : entries.Pairwise fun e1 e2 => ∀ a, ¬ (e1.2.contains a ∧ e2.2.contains a))
    (e : SID × IPNet) (he : e ∈ entries) (h64 : e.1 < 2 ^ 64) :
    ∃ t t', addAll New entries = some t ∧ t.Remove e.1 e.2 = some t' ∧
      ∀ a, (e.2.contains a → t'.Get a = 0) ∧ (¬ e.2.contains a → t'.Get a = t.Get a) := by
  obtain ⟨t, ht, _⟩ := addAll_exact entries New hcan
  obtain ⟨t', ht'⟩ := Remove_isSome t e.1 e.2 (hcan e he)
  have hr := Remove_root t t' e.1 e.2 ht'
  refine ⟨t, t', ht, ht', fun a => ⟨fun hin => ?_, fun hout => ?_⟩⟩
  · obtain ⟨l1, l2, hsplit⟩ := List.append_of_mem he
    have hc : Covered entries 0 t.root :=
      addAll_covered entries New t [] ht (Covered_zero _ _) entries (fun x hx => by simp at hx)
        (fun x hx => hx)
    have hc' : Covered (l1 ++ l2) 0 t'.root :=
      Covered_remove e.1 e.2.IP e.2.prefixLen h64 (hcan e he).1 8 0 entries (l1 ++ l2) _ _ rfl
        (Or.inl rfl) hr hc (by
          intro x hx
          rw [hsplit] at hx
          simp only [List.mem_append, List.mem_cons] at hx ⊢
          tauto)
    apply Nat.eq_of_testBit_eq
    intro b
    rw [Nat.zero_testBit]
    by_contra hb
    rw [Get_eq] at hb
    obtain ⟨x, hx, hcov, _⟩ := Covered_get a 8 0 _ _ hc' b (by simpa using hb)
    have hxin : x ∈ entries := by
      rw [hsplit]
      simp only [List.mem_append, List.mem_cons] at hx ⊢
      tauto
    have hxa : x.2.contains a := (covers_iff_contains x.2.IP a x.2.prefixLen (hcan x hxin)).1 hcov
    rw [hsplit, List.pairwise_append, List.pairwise_cons] at hdisj
    rcases List.mem_append.1 hx with h1 | h2
    · exact hdisj.2.2 x h1 e (List.mem_cons_self _ _) a ⟨hxa, hin⟩
    · exact hdisj.2.1.1 x h2 a ⟨hin, hxa⟩
  · rw [Get_eq, Get_eq]
    exact removeLoop_outside _ _ _ a _ _ _ _ _ (addAll_hasPath entries New t ht e he) hr
      (fun h' => hout ((covers_iff_contains e.2.IP a e.2.prefixLen (hcan e he)).1 h'))

theorem C9_local_removal_witness :
    ∃ t t', addAll New [(16, cidr (ip4 10 192 171 24) 32), (16, cidr (ip4 10 192 173 24) 32)]
        = some t ∧
      t.Remove 16 (cidr (ip4 10 192 171 24) 32) = some t' ∧
      ∀ a, ((cidr (ip4 10 192 171 24) 32).contains a → t'.Get a = 0) ∧
        (¬ (cidr (ip4 10 192 171 24) 32).contains a → t'.Get a = t.Get a) :=
  C9_local_removal [(16, cidr (ip4 10 192 171 24) 32), (16, cidr (ip4 10 192 173 24) 32)]
    (by decide)
    (by
      rw [List.pairwise_pair]
      intro a h
      have h1 : bigEndianUint32 a / 2 ^ 0 = bigEndianUint32 (ip4 10 192 171 24) / 2 ^ 0 := h.1
      have h2 : bigEndianUint32 a / 2 ^ 0 = bigEndianUint32 (ip4 10 192 173 24) / 2 ^ 0 := h.2
      rw [h1] at h2
      exact absurd h2 (by decide))
    (16, cidr (ip4 10 192 171 24) 32) (by simp) (by norm_num)


/-! ### The bit-group extractor -/

/-- C11: for every 4-byte address `b` and every level `i` in `[0, 8)`,
`getSubstring(b, i)` is the 4-bit value at the bit positions `[4i, 4i+4)`
counted from the most significant bit of the big-endian 32-bit integer of
`b`, that is `(BE32(b) / 2^(28-4i)) mod 16`; it is below 16. -/
theorem C11_getSubstring (b : IPv4) (i : Nat) (hi : i < 32 / bitslen) :
    getSubstring b i = (bigEndianUint32 b / 2 ^ (28 - 4 * i)) % 16 ∧ getSubstring b i < 16 := by
  have h := getSubstring_eq b i (by unfold bitslen at hi; omega)
  refine ⟨h, ?_⟩
  rw [h]
  exact Nat.mod_lt _ (by norm_num)

theorem C11_getSubstring_witness :
    (getSubstring (ip4 0x0A 0xC0 0xAB 0x18) 5 =
        (bigEndianUint32 (ip4 0x0A 0xC0 0xAB 0x18) / 2 ^ (28 - 4 * 5)) % 16 ∧
      getSubstring (ip4 0x0A 0xC0 0xAB 0x18) 5 < 16) ∧
    (List.range 8).map (getSubstring (ip4 0x0A 0xC0 0xAB 0x18)) =
      [0x0, 0xA, 0xC, 0x0, 0xA, 0xB, 0x1, 0x8] :=
  ⟨C11_getSubstring (ip4 0x0A 0xC0 0xAB 0x18) 5 (by decide), by decide⟩

/-! ### Algebra of `Add` -/

/-- Whether the range loop runs to its end depends on the range alone. -/
theorem updRange_bound (f : SID → SID) : ∀ (n j : Nat) (node a : treenode),
    updRange f n j node = some a → n = 0 ∨ j + n ≤ 16 := by
  intro n
  induction n with
  | zero => intro j node a _; exact Or.inl rfl
  | succ n ih =>
    intro j node a h
    unfold updRange at h
    split at h
    · rcases ih _ _ _ h with h0 | h1
      · right; omega
      · right; omega
    · exact absurd h (by simp)

theorem updRange_isSome_of (f g : SID → SID) (n j : Nat) (node node' a : treenode)
    (h : updRange f n j node = some a) : ∃ b, updRange g n j node' = some b := by
  rcases updRange_bound f n j node a h with h0 | h1
  · subst h0; exact ⟨node', rfl⟩
  · exact updRange_isSome g n j node' h1

/-- `Add` of `s1 | s2` is `Add` of `s1` followed by `Add` of `s2`, from any
level of the descent. -/
theorem addLoop_lor (s1 s2 : SID) (ip : IPv4) (L : Nat) :
    ∀ (fuel i curLen : Nat) (n a b : treenode),
      addLoop s1 ip L fuel i curLen n = some a → addLoop s2 ip L fuel i curLen a = some b →
        addLoop (s1 ||| s2) ip L fuel i curLen n = some b := by
  intro fuel
  induction fuel with
  | zero =>
    intro i curLen n a b h1 h2
    simp only [addLoop, Option.some.injEq] at h1 h2 ⊢
    rw [h1, h2]
  | succ fuel ih =>
    intro i curLen n a b h1 h2
    by_cases hterm : curLen ≥ L
    · rw [addLoop, if_pos hterm] at h1 h2 ⊢
      obtain ⟨hp1, hs1⟩ := updRange_some _ _ _ _ _ h1
      obtain ⟨hp2, hs2⟩ := updRange_some _ _ _ _ _ h2
      cases h3 : updRange (fun x => x ||| (s1 ||| s2))
          (rangeEnd (getSubstring ip i) curLen L + 1 - getSubstring ip i) (getSubstring ip i) n with
      | none =>
        obtain ⟨c, hc⟩ := updRange_isSome_of _ (fun x => x ||| (s1 ||| s2)) _ _ _ n _ h1
        rw [hc] at h3
        exact absurd h3 (by simp)
      | some c =>
        obtain ⟨hp3, hs3⟩ := updRange_some _ _ _ _ _ h3
        congr 1
        apply treenode.ext
        · funext k
          rw [hs3 k, hs2 k, hs1 k]
          split
          · rw [Nat.lor_assoc]
          · rfl
        · rw [hp3, hp2, hp1]
    · rw [addLoop, if_neg hterm] at h1 h2 ⊢
      simp only [Option.map_eq_some'] at h1 h2 ⊢
      obtain ⟨c1, hc1, rfl⟩ := h1
      obtain ⟨c2, hc2, rfl⟩ := h2
      simp only [ptrs_setPtr, Function.update_same, Option.getD_some] at hc2
      refine ⟨c2, ih _ _ _ _ _ hc1 hc2, ?_⟩
      apply treenode.ext
      · rfl
      · simp only [ptrs_setPtr, Function.update_idem]

theorem Add_bind_root (t u : Tree) (s : SID) (p : IPNet) :
    t.Add s p = some u ↔ addLoop s p.IP p.prefixLen 8 0 (4 * (0 + 1)) t.root = some u.root := by
  unfold Tree.Add
  simp only [Option.map_eq_some']
  constructor
  · rintro ⟨r, hr, rfl⟩; exact hr
  · intro h; exact ⟨u.root, h, rfl⟩

/-- C12: for every tree, services `s1`, `s2` and canonical prefix `P`,
`Add(s1 | s2, P)` gives the same tree as `Add(s1, P)` followed by
`Add(s2, P)`; so adding an entry twice gives the same tree as adding it once. -/
theorem C12_add_multi_bit (t : Tree) (s1 s2 : SID) (p : IPNet) (hcan : p.canonical) :
    (∃ u, t.Add (s1 ||| s2) p = some u ∧ (t.Add s1 p).bind (fun v => v.Add s2 p) = some u) ∧
    (∃ u, t.Add s1 p = some u ∧ (t.Add s1 p).bind (fun v => v.Add s1 p) = some u) := by
  have key : ∀ x y : SID, ∃ u, t.Add (x ||| y) p = some u ∧
      (t.Add x p).bind (fun v => v.Add y p) = some u := by
    intro x y
    obtain ⟨v, hv⟩ := Add_isSome t x p hcan
    obtain ⟨u, hu⟩ := Add_isSome v y p hcan
    refine ⟨u, ?_, by rw [hv, Option.some_bind]; exact hu⟩
    rw [Add_bind_root] at hv hu ⊢
    exact addLoop_lor x y p.IP p.prefixLen _ _ _ _ _ _ hv hu
  refine ⟨key s1 s2, ?_⟩
  have h := key s1 s1
  rw [Nat.or_self] at h
  exact h

theorem C12_add_multi_bit_witness :
    (∃ u, New.Add (1 ||| 4) (cidr (ip4 10 192 170 0) 23) = some u ∧
      (New.Add 1 (cidr (ip4 10 192 170 0) 23)).bind
        (fun v => v.Add 4 (cidr (ip4 10 192 170 0) 23)) = some u) ∧
    (∃ u, New.Add 1 (cidr (ip4 10 192 170 0) 23) = some u ∧
      (New.Add 1 (cidr (ip4 10 192 170 0) 23)).bind
        (fun v => v.Add 1 (cidr (ip4 10 192 170 0) 23)) = some u) :=
  C12_add_multi_bit New 1 4 (cidr (ip4 10 192 170 0) 23) (by decide)


/-- Two `Add` calls commute, from any level of the descent. -/
theorem addLoop_comm (s1 s2 : SID) (ip1 ip2 : IPv4) (L1 L2 : Nat) :
    ∀ (fuel i curLen : Nat) (n a b a' b' : treenode),
      addLoop s1 ip1 L1 fuel i curLen n = some a → addLoop s2 ip2 L2 fuel i curLen a = some b →
      addLoop s2 ip2 L2 fuel i curLen n = some a' → addLoop s1 ip1 L1 fuel i curLen a' = some b' →
        b = b' := by
  intro fuel
  induction fuel with
  | zero =>
    intro i curLen n a b a' b' h1 h2 h3 h4
    simp only [addLoop, Option.some.injEq] at h1 h2 h3 h4
    rw [← h2, ← h1, ← h4, ← h3]
  | succ fuel ih =>
    intro i curLen n a b a' b' h1 h2 h3 h4
    by_cases ht1 : curLen ≥ L1
    · rw [addLoop, if_pos ht1] at h1 h4
      obtain ⟨hp1, hs1⟩ := updRange_some _ _ _ _ _ h1
      obtain ⟨hp4, hs4⟩ := updRange_some _ _ _ _ _ h4
      by_cases ht2 : curLen ≥ L2
      · rw [addLoop, if_pos ht2] at h2 h3
        obtain ⟨hp2, hs2⟩ := updRange_some _ _ _ _ _ h2
        obtain ⟨hp3, hs3⟩ := updRange_some _ _ _ _ _ h3
        apply treenode.ext
        · funext k
          rw [hs2 k, hs1 k, hs4 k, hs3 k]
          split <;> split <;> first | rfl | exact lor_right_comm _ _ _
        · rw [hp2, hp1, hp4, hp3]
      · rw [addLoop, if_neg ht2] at h2 h3
        simp only [Option.map_eq_some'] at h2 h3
        obtain ⟨c, hc, rfl⟩ := h2
        obtain ⟨c', hc', rfl⟩ := h3
        rw [hp1, hc'] at hc
        simp only [Option.some.injEq] at hc
        subst hc
        apply treenode.ext
        · funext k
          simp only [srvs_setPtr]
          rw [hs1 k, hs4 k]
          rfl
        · rw [hp4]
          simp only [ptrs_setPtr, hp1]
    · rw [addLoop, if_neg ht1] at h1 h4
      simp only [Option.map_eq_some'] at h1 h4
      obtain ⟨c1, hc1, rfl⟩ := h1
      obtain ⟨c4, hc4, rfl⟩ := h4
      by_cases ht2 : curLen ≥ L2
      · rw [addLoop, if_pos ht2] at h2 h3
        obtain ⟨hp2, hs2⟩ := updRange_some _ _ _ _ _ h2
        obtain ⟨hp3, hs3⟩ := updRange_some _ _ _ _ _ h3
        rw [hp3, hc1] at hc4
        simp only [Option.some.injEq] at hc4
        subst hc4
        apply treenode.ext
        · funext k
          simp only [srvs_setPtr]
          rw [hs2 k, hs3 k]
          rfl
        · rw [hp2]
          simp only [ptrs_setPtr, hp3]
      · rw [addLoop, if_neg ht2] at h2 h3
        simp only [Option.map_eq_some'] at h2 h3
        obtain ⟨c2, hc2, rfl⟩ := h2
        obtain ⟨c3, hc3, rfl⟩ := h3
        simp only [ptrs_setPtr] at hc2 hc4
        by_cases hn : nib ip1 i = nib ip2 i
        · rw [hn] at hc1 hc2 hc4 ⊢
          rw [Function.update_same, Option.getD_some] at hc2 hc4
          have := ih _ _ _ _ _ _ _ hc1 hc2 hc3 hc4
          subst this
          apply treenode.ext
          · rfl
          · simp only [ptrs_setPtr, Function.update_idem]
        · rw [Function.update_noteq (Ne.symm hn)] at hc2
          rw [Function.update_noteq hn] at hc4
          rw [hc3] at hc2
          rw [hc1] at hc4
          simp only [Option.some.injEq] at hc2 hc4
          subst hc2
          subst hc4
          apply treenode.ext
          · simp only [srvs_setPtr]
          · exact Function.update_comm hn _ _ _

/-- C17: for every tree, services `s1`, `s2` and canonical prefixes `P1`,
`P2`, `Add(s1, P1)` followed by `Add(s2, P2)` gives the same tree as
`Add(s2, P2)` followed by `Add(s1, P1)`. -/
theorem C17_add_order (t : Tree) (s1 s2 : SID) (p1 p2 : IPNet) (h1 : p1.canonical)
    (h2 : p2.canonical) :
    ∃ u, (t.Add s1 p1).bind (fun v => v.Add s2 p2) = some u ∧
      (t.Add s2 p2).bind (fun v => v.Add s1 p1) = some u := by
  obtain ⟨a, ha⟩ := Add_isSome t s1 p1 h1
  obtain ⟨b, hb⟩ := Add_isSome a s2 p2 h2
  obtain ⟨a', ha'⟩ := Add_isSome t s2 p2 h2
  obtain ⟨b', hb'⟩ := Add_isSome a' s1 p1 h1
  have hr : b.root = b'.root :=
    addLoop_comm s1 s2 p1.IP p2.IP p1.prefixLen p2.prefixLen _ _ _ _ _ _ _ _
      ((Add_bind_root _ _ _ _).1 ha) ((Add_bind_root _ _ _ _).1 hb)
      ((Add_bind_root _ _ _ _).1 ha') ((Add_bind_root _ _ _ _).1 hb')
  have hbb : b = b' := by
    cases b; cases b'; simp only at hr; rw [hr]
  refine ⟨b, by rw [ha, Option.some_bind]; exact hb, ?_⟩
  rw [ha', Option.some_bind, hb', hbb]

theorem C17_add_order_witness :
    ∃ u, (New.Add 4 (cidr (ip4 10 0 0 0) 7)).bind
        (fun v => v.Add 1 (cidr (ip4 10 192 170 0) 23)) = some u ∧
      (New.Add 1 (cidr (ip4 10 192 170 0) 23)).bind
        (fun v => v.Add 4 (cidr (ip4 10 0 0 0) 7)) = some u :=
  C17_add_order New 4 1 (cidr (ip4 10 0 0 0) 7) (cidr (ip4 10 192 170 0) 23)
    (by decide) (by decide)


/-! ### Empty nodes and the exact round trip -/

/-- C15: the predicate "every node below the root has a non-zero slot or a
child" holds for `New()`; on a tree that has it, `Add(s, P)` with a non-zero
service and a canonical prefix returns a tree that has it, and so does
`Remove(s, P)` with any service and a canonical prefix, added before or not. -/
theorem C15_no_empty_node (t : Tree) (s : SID) (p : IPNet) (hcan : p.canonical)
    (hp : t.root.Pruned) :
    New.root.Pruned ∧
    (s ≠ 0 → ∃ t', t.Add s p = some t' ∧ t'.root.Pruned) ∧
    (∃ t', t.Remove s p = some t' ∧ t'.root.Pruned) := by
  refine ⟨Pruned_zero, fun hs => ?_, ?_⟩
  · obtain ⟨t', ht'⟩ := Add_isSome t s p hcan
    exact ⟨t', ht', (Pruned_addLoop s p.IP p.prefixLen hs hcan 8 0 _ _ rfl (Or.inl rfl)
      (Add_root t t' s p ht') hp).1⟩
  · obtain ⟨t', ht'⟩ := Remove_isSome t s p hcan
    exact ⟨t', ht', Pruned_removeLoop _ _ _ _ _ _ _ _ (Remove_root t t' s p ht') hp⟩

theorem C15_no_empty_node_witness :
    New.root.Pruned ∧
    ((1 : SID) ≠ 0 → ∃ t', (Tree.mk (.mk (fun _ => 0) (fun j => if j = 0 then
        some (.mk (fun j => if j = 10 then 2 else 0) (fun _ => none)) else none))).Add 1
          (cidr (ip4 10 192 170 0) 23) = some t' ∧ t'.root.Pruned) ∧
    (∃ t', (Tree.mk (.mk (fun _ => 0) (fun j => if j = 0 then
        some (.mk (fun j => if j = 10 then 2 else 0) (fun _ => none)) else none))).Remove 1
          (cidr (ip4 10 192 170 0) 23) = some t' ∧ t'.root.Pruned) :=
  C15_no_empty_node _ 1 (cidr (ip4 10 192 170 0) 23) (by decide)
    (treenode.Pruned.mk _ _
      (fun j c h => by
        split at h
        · rw [Option.some.injEq] at h; subst h; decide
        · exact absurd h (by simp))
      (fun j c h => by
        split at h
        · rw [Option.some.injEq] at h; subst h
          exact treenode.Pruned.mk _ _ (fun _ _ h' => by simp at h') (fun _ _ h' => by simp at h')
        · exact absurd h (by simp)))

/-- The pointer left by the pruning step on the child `Add` descended into,
when that child is as it was before `Add`. -/
theorem setPtr_restore (node : treenode) (j : Fin 16) (c1 : treenode) (hp : node.Pruned) :
    (node.setPtr j (some c1)).setPtr j
      (if ((node.ptrs j).getD treenode.zero).isEmpty then none
        else some ((node.ptrs j).getD treenode.zero)) = node := by
  apply treenode.ext
  · rfl
  · simp only [ptrs_setPtr, Function.update_idem]
    funext k
    by_cases hk : k = j
    · subst hk
      rw [Function.update_same]
      cases hc : node.ptrs k with
      | none => rw [Option.getD_none, if_pos (by decide)]
      | some c => rw [Option.getD_some, if_neg (by rw [Pruned_nonempty hp hc]; decide)]
    · rw [Function.update_noteq hk]

/-- `Add` followed by `Remove` of the same entry, from any level of the
descent: the node is the one before. -/
theorem add_remove_loop_eq (s : SID) (ip : IPv4) (L : Nat) (hcan : (IPNet.mk ip L).canonical)
    (hs : s < 2 ^ 64) :
    ∀ (fuel i : Nat) (node : treenode), i + fuel = 8 → (i = 0 ∨ 4 * i < L) → node.Valid →
      node.Pruned → freshFor s ip L fuel i (4 * (i + 1)) node →
      ∃ n1, addLoop s ip L fuel i (4 * (i + 1)) node = some n1 ∧
        removeLoop (MaxUint64 ^^^ s) ip L fuel i (4 * (i + 1)) n1 = some node := by
  intro fuel
  induction fuel with
  | zero => intro i node _ _ _ _ _; exact ⟨node, rfl, rfl⟩
  | succ fuel ih =>
    intro i node h1 h2 hv hp hf
    have hL : L ≤ 32 := hcan.1
    by_cases hterm : 4 * (i + 1) ≥ L
    · obtain ⟨e, hle⟩ := range_ok ip L i hcan (by omega) h2 hterm
      have hpos : 0 < 2 ^ (4 * (i + 1) - L) := by positivity
      obtain ⟨n1, hn1⟩ : ∃ n1, addLoop s ip L (fuel + 1) i (4 * (i + 1)) node = some n1 := by
        rw [addLoop, if_pos hterm]; simp only []; rw [e]; exact updRange_isSome _ _ _ _ hle
      obtain ⟨n2, hn2⟩ : ∃ n2, removeLoop (MaxUint64 ^^^ s) ip L (fuel + 1) i (4 * (i + 1)) n1
          = some n2 := by
        rw [removeLoop, if_pos hterm]; simp only []; rw [e]; exact updRange_isSome _ _ _ _ hle
      refine ⟨n1, hn1, ?_⟩
      rw [hn2]
      rw [addLoop, if_pos hterm] at hn1
      rw [removeLoop, if_pos hterm] at hn2
      obtain ⟨hp1, hs1⟩ := updRange_some _ _ _ _ _ hn1
      obtain ⟨hp2, hs2⟩ := updRange_some _ _ _ _ _ hn2
      rw [freshFor, if_pos hterm] at hf
      congr 1
      apply treenode.ext
      · funext k
        rw [hs2 k, hs1 k]
        split
        · rename_i hk
          exact lor_land_xor _ _ (Valid_srvs hv k) hs (hf k hk.1 (by omega))
        · rfl
      · rw [hp2, hp1]
    · have hi : i + 1 < 32 / bitslen := by unfold bitslen; omega
      have e : 4 * (i + 1) + bitslen = 4 * (i + 1 + 1) := by unfold bitslen; omega
      rw [freshFor, if_neg hterm, e] at hf
      obtain ⟨c1, hc1, hc2⟩ := ih (i + 1) ((node.ptrs (nib ip i)).getD treenode.zero)
        (by omega) (Or.inr (by omega)) (Valid_getD hv _) (Pruned_getD hp _)
        (freshFor_getD _ _ _ _ _ _ _ _ hf)
      refine ⟨node.setPtr (nib ip i) (some c1), ?_, ?_⟩
      · rw [addLoop, if_neg hterm]; simp only []; rw [e, hc1]; rfl
      · rw [removeLoop_step_some _ ip L fuel i _ _ c1 hterm hi (by simp), e, hc2,
          Option.map_some', setPtr_restore node (nib ip i) c1 hp]

/-- C16: for every tree with `uint64` slots and no empty node below the root,
every service `s` and every canonical prefix `P` such that no slot in the
terminal range of `P` along the path of `P` in the tree carries a bit of `s`
(also when that path does not exist), `Remove(s, P)` applied to the result of
`Add(s, P)` gives a tree equal to the one before. -/
theorem C16_structural_round_trip (t : Tree) (s : SID) (p : IPNet) (hcan : p.canonical)
    (hs : s < 2 ^ 64) (hv : t.root.Valid) (hp : t.root.Pruned)
    (hfresh : freshFor s p.IP p.prefixLen (32 / bitslen) 0 bitslen t.root) :
    ∃ t1, t.Add s p = some t1 ∧ t1.Remove s p = some t := by
  obtain ⟨n1, h1, h2⟩ := add_remove_loop_eq s p.IP p.prefixLen hcan hs 8 0 t.root rfl
    (Or.inl rfl) hv hp hfresh
  refine ⟨⟨n1⟩, ?_, ?_⟩
  · unfold Tree.Add; rw [show (32 / bitslen) = 8 from rfl, show bitslen = 4 * (0 + 1) from rfl, h1]
    rfl
  · unfold Tree.Remove
    rw [show (32 / bitslen) = 8 from rfl, show bitslen = 4 * (0 + 1) from rfl, h2]; rfl

theorem C16_structural_round_trip_witness :
    ∃ t1, (Tree.mk (.mk (fun j => if j = 10 then 4 else 0) (fun _ => none))).Add 1
        (cidr (ip4 160 16 0 0) 12) = some t1 ∧
      t1.Remove 1 (cidr (ip4 160 16 0 0) 12) =
        some (Tree.mk (.mk (fun j => if j = 10 then 4 else 0) (fun _ => none))) :=
  C16_structural_round_trip (Tree.mk (.mk (fun j => if j = 10 then 4 else 0) (fun _ => none))) 1
    (cidr (ip4 160 16 0 0) 12) (by decide) (by norm_num)
    (treenode.Valid.mk _ _ (fun j => by split <;> norm_num) (fun _ _ h => by simp at h))
    (treenode.Pruned.mk _ _ (fun _ _ h => by simp at h) (fun _ _ h => by simp at h))
    (by
      show freshFor 1 (ip4 160 16 0 0) 12 8 0 4 _
      rw [freshFor, if_neg (by norm_num)]
      intro c hc
      simp at hc)


/-! ### The shape of one `Add` on the empty tree -/

theorem pathNodes_terminal (L k : Nat) (hk : k + 1 = pathNodes L) :
    (k = 0 ∨ 4 * k < L) ∧ L ≤ 4 * (k + 1) := by
  unfold pathNodes at hk
  omega

theorem pathNodes_inner (L k r : Nat) (hk : k + (r + 1) + 1 = pathNodes L) :
    4 * (k + 1) < L := by
  unfold pathNodes at hk
  omega

theorem addLoop_shape (s : SID) (ip : IPv4) (L : Nat) (hcan : (IPNet.mk ip L).canonical) :
    ∀ (r fuel k : Nat), k + fuel = 8 → (k = 0 ∨ 4 * k < L) → k + r + 1 = pathNodes L →
      addLoop s ip L fuel k (4 * (k + 1)) treenode.zero = some (expectedShape s ip L r k) := by
  have hL : L ≤ 32 := hcan.1
  intro r
  induction r with
  | zero =>
    intro fuel k hf hlo hk
    obtain ⟨_, hhi⟩ := pathNodes_terminal L k hk
    have hk8 : k < 8 := by omega
    obtain ⟨fuel, rfl⟩ : ∃ f, fuel = f + 1 := ⟨fuel - 1, by omega⟩
    rw [addLoop, if_pos hhi]
    obtain ⟨e, hle⟩ := range_ok ip L k hcan hk8 hlo hhi
    simp only []
    rw [e]
    obtain ⟨a, ha⟩ := updRange_isSome (fun x => x ||| s) _ _ treenode.zero hle
    rw [ha]
    obtain ⟨hp, hs⟩ := updRange_some _ _ _ _ _ ha
    congr 1
    apply treenode.ext
    · funext j
      rw [hs j]
      simp only [expectedShape, srvs_mk, srvs_zero, Nat.zero_or]
    · rw [hp]; rfl
  | succ r ih =>
    intro fuel k hf hlo hk
    have hlt := pathNodes_inner L k r (by omega)
    obtain ⟨fuel, rfl⟩ : ∃ f, fuel = f + 1 := ⟨fuel - 1, by omega⟩
    rw [addLoop, if_neg (by omega)]
    have e : 4 * (k + 1) + bitslen = 4 * (k + 1 + 1) := by unfold bitslen; omega
    simp only [ptrs_zero, Option.getD_none]
    rw [e, ih fuel (k + 1) (by omega) (Or.inr (by omega)) (by omega), Option.map_some']
    congr 1
    apply treenode.ext
    · rfl
    · funext j
      simp only [ptrs_setPtr, ptrs_zero, expectedShape, ptrs_mk, Function.update_apply]

/-- C14: for every service `s` and canonical prefix `A/L`, with
`d = max(1, ceil(L / 4))`, `New() + Add(s, A/L)` is the root followed by a
chain of `d - 1` child nodes linked at the bit groups `0 .. d-2` of `A`; the
last node of the chain holds `s` in the `2 ^ (4d - L)` consecutive slots that
start at the bit group `d - 1` of `A` and has no child, every other slot is 0
and every other pointer is nil. -/
theorem C14_add_shape (s : SID) (p : IPNet) (hcan : p.canonical) :
    New.Add s p = some ⟨expectedShape s p.IP p.prefixLen (pathNodes p.prefixLen - 1) 0⟩ := by
  have h := addLoop_shape s p.IP p.prefixLen hcan (pathNodes p.prefixLen - 1) 8 0 rfl
    (Or.inl rfl) (by unfold pathNodes; omega)
  unfold Tree.Add
  rw [show (32 / bitslen) = 8 from rfl, show bitslen = 4 * (0 + 1) from rfl]
  show Option.map Tree.mk (addLoop s p.IP p.prefixLen 8 0 (4 * (0 + 1)) treenode.zero) = _
  rw [h]
  rfl

theorem C14_add_shape_witness :
    New.Add 1 (cidr (ip4 0x0A 0xC0 0xAB 0x18) 32) =
        some ⟨expectedShape 1 (ip4 0x0A 0xC0 0xAB 0x18) 32 (pathNodes 32 - 1) 0⟩ ∧
      pathNodes 32 - 1 = 7 ∧ pathNodes 23 = 6 ∧ pathNodes 0 = 1 :=
  ⟨C14_add_shape 1 (cidr (ip4 0x0A 0xC0 0xAB 0x18) 32) (by decide), by decide, by decide,
    by decide⟩


/-! ### Bounded depth -/

theorem heightLe_zero_node (d : Nat) : heightLe d treenode.zero := by
  cases d with
  | zero => intro j; rfl
  | succ d => intro j c h; simp at h

theorem heightLe_of_ptrs {n n' : treenode} (h : n'.ptrs = n.ptrs) (d : Nat)
    (hd : heightLe d n) : heightLe d n' := by
  cases d with
  | zero => intro j; rw [h]; exact hd j
  | succ d => intro j c hc; rw [h] at hc; exact hd j c hc

theorem heightLe_getD (d : Nat) (n : treenode) (j : Fin 16) (h : heightLe (d + 1) n) :
    heightLe d ((n.ptrs j).getD treenode.zero) := by
  cases hc : n.ptrs j with
  | none => exact heightLe_zero_node d
  | some c => exact h j c hc

/-- `Add` with a prefix length of at most 32 makes no node below level 7. -/
theorem heightLe_addLoop (s : SID) (ip : IPv4) (L : Nat) (hL : L ≤ 32) :
    ∀ (fuel k : Nat) (n n' : treenode), k + fuel = 8 →
      addLoop s ip L fuel k (4 * (k + 1)) n = some n' → heightLe (7 - k) n →
        heightLe (7 - k) n' := by
  intro fuel
  induction fuel with
  | zero =>
    intro k n n' _ h hd
    simp only [addLoop, Option.some.injEq] at h
    subst h; exact hd
  | succ fuel ih =>
    intro k n n' hk h hd
    by_cases hterm : 4 * (k + 1) ≥ L
    · rw [addLoop, if_pos hterm] at h
      exact heightLe_of_ptrs (updRange_some _ _ _ _ _ h).1 _ hd
    · rw [addLoop, if_neg hterm] at h
      simp only [Option.map_eq_some'] at h
      obtain ⟨c1, hc1, rfl⟩ := h
      have e : 4 * (k + 1) + bitslen = 4 * (k + 1 + 1) := by unfold bitslen; omega
      have e7 : 7 - k = (7 - (k + 1)) + 1 := by omega
      rw [e] at hc1
      rw [e7] at hd ⊢
      have hc := ih (k + 1) _ _ (by omega) hc1 (heightLe_getD _ n (nib ip k) hd)
      intro j c hj
      simp only [ptrs_setPtr] at hj
      by_cases hjn : j = nib ip k
      · subst hjn
        rw [Function.update_same, Option.some.injEq] at hj
        subst hj; exact hc
      · rw [Function.update_noteq hjn] at hj
        exact hd j c hj

/-- `Remove` makes no node. -/
theorem heightLe_removeLoop (m : SID) (ip : IPv4) (L : Nat) :
    ∀ (fuel i curLen : Nat) (n n' : treenode),
      removeLoop m ip L fuel i curLen n = some n' → ∀ d, heightLe d n → heightLe d n' := by
  intro fuel
  induction fuel with
  | zero =>
    intro i curLen n n' h d hd
    simp only [removeLoop, Option.some.injEq] at h
    subst h; exact hd
  | succ fuel ih =>
    intro i curLen n n' h d hd
    by_cases hterm : curLen ≥ L
    · rw [removeLoop, if_pos hterm] at h
      exact heightLe_of_ptrs (updRange_some _ _ _ _ _ h).1 _ hd
    · by_cases hi : i + 1 < 32 / bitslen
      · cases hpn : n.ptrs (nib ip i) with
        | none =>
          rw [removeLoop_step_none m ip L fuel i curLen n hterm hi hpn] at h
          exact ih _ _ _ _ h d hd
        | some c =>
          rw [removeLoop_step_some m ip L fuel i curLen n c hterm hi hpn] at h
          simp only [Option.map_eq_some'] at h
          obtain ⟨c', hc', rfl⟩ := h
          cases d with
          | zero => rw [hd (nib ip i)] at hpn; exact absurd hpn (by simp)
          | succ d =>
            intro j c'' hj
            simp only [ptrs_setPtr] at hj
            by_cases hjn : j = nib ip i
            · subst hjn
              rw [Function.update_same] at hj
              split at hj
              · exact absurd hj (by simp)
              · rw [Option.some.injEq] at hj
                subst hj
                exact ih _ _ _ _ hc' d (hd _ c hpn)
            · rw [Function.update_noteq hjn] at hj
              exact hd j c'' hj
      · rw [removeLoop, if_neg hterm, if_neg hi] at h
        exact absurd h (by simp)

theorem getVisits_le (a : IPv4) : ∀ (fuel i : Nat) (n : treenode), getVisits a fuel i n ≤ fuel := by
  intro fuel
  induction fuel with
  | zero => intro i n; exact le_refl _
  | succ fuel ih =>
    intro i n
    rw [getVisits]
    cases n.ptrs (nib a i) with
    | none => simp
    | some c =>
      rw [Option.elim_some]
      have := ih (i + 1) c
      omega

theorem nodeCount_zero_node (d : Nat) : nodeCount d treenode.zero ≤ 1 := by
  cases d with
  | zero => simp [nodeCount]
  | succ d => simp [nodeCount]

theorem nodeCount_of_ptrs {n n' : treenode} (h : n'.ptrs = n.ptrs) (d : Nat) :
    nodeCount d n' = nodeCount d n := by
  cases d with
  | zero => rfl
  | succ d => simp only [nodeCount, h]

/-- A sum over the 16 pointers that grows in one place only. -/
theorem sum_le_of_one (F F' : Fin 16 → Nat) (ind : Fin 16) (B : Nat)
    (h1 : ∀ j, j ≠ ind → F' j = F j) (h2 : F' ind ≤ F ind + B) :
    ∑ j : Fin 16, F' j ≤ ∑ j : Fin 16, F j + B := by
  have h : ∀ j ∈ (Finset.univ : Finset (Fin 16)), F' j ≤ F j + (if j = ind then B else 0) := by
    intro j _
    by_cases hj : j = ind
    · subst hj; rw [if_pos rfl]; exact h2
    · rw [if_neg hj, h1 j hj]; omega
  calc ∑ j : Fin 16, F' j ≤ ∑ j : Fin 16, (F j + (if j = ind then B else 0)) :=
        Finset.sum_le_sum h
    _ = ∑ j : Fin 16, F j + B := by
        rw [Finset.sum_add_distrib, Finset.sum_ite_eq' Finset.univ ind (fun _ => B)]
        simp

/-- `Add` makes at most `fuel - 1` nodes below the node it is at, when `fuel`
levels are left. -/
theorem nodeCount_addLoop (s : SID) (ip : IPv4) (L : Nat) :
    ∀ (fuel i curLen : Nat) (n n' : treenode),
      addLoop s ip L fuel i curLen n = some n' →
        nodeCount fuel n' ≤ nodeCount fuel n + (fuel - 1) := by
  intro fuel
  induction fuel with
  | zero => intro i curLen n n' _; simp [nodeCount]
  | succ fuel ih =>
    intro i curLen n n' h
    by_cases hterm : curLen ≥ L
    · rw [addLoop, if_pos hterm] at h
      rw [nodeCount_of_ptrs (updRange_some _ _ _ _ _ h).1]
      omega
    · rw [addLoop, if_neg hterm] at h
      simp only [Option.map_eq_some'] at h
      obtain ⟨c1, hc1, rfl⟩ := h
      have hc := ih _ _ _ _ hc1
      simp only [nodeCount, ptrs_setPtr]
      have hsum := sum_le_of_one (fun j => (n.ptrs j).elim 0 (nodeCount fuel))
        (fun j => (Function.update n.ptrs (nib ip i) (some c1) j).elim 0 (nodeCount fuel))
        (nib ip i) fuel
        (by intro j hj; simp only [Function.update_noteq hj])
        (by
          simp only [Function.update_same, Option.elim_some]
          cases hp : n.ptrs (nib ip i) with
          | none =>
            rw [hp, Option.getD_none] at hc
            have := nodeCount_zero_node fuel
            simp only [Option.elim_none]
            cases fuel with
            | zero => simp [nodeCount]
            | succ f => omega
          | some c =>
            rw [hp, Option.getD_some] at hc
            simp only [Option.elim_some]
            omega)
      beta_reduce at hsum
      simp only [Nat.add_sub_cancel]
      omega

theorem Op_run_height (op : Op) (t t' : Tree) (hL : op.ipnet.prefixLen ≤ 32)
    (h : op.run t = some t') (hd : heightLe 7 t.root) : heightLe 7 t'.root := by
  cases op with
  | add s p =>
    exact heightLe_addLoop s p.IP p.prefixLen hL 8 0 _ _ rfl (Add_root t t' s p h) hd
  | remove s p =>
    exact heightLe_removeLoop _ p.IP p.prefixLen _ _ _ _ _ (Remove_root t t' s p h) 7 hd

theorem runOps_height : ∀ (ops : List Op) (t t' : Tree),
    (∀ op ∈ ops, op.ipnet.prefixLen ≤ 32) → runOps t ops = some t' → heightLe 7 t.root →
      heightLe 7 t'.root := by
  intro ops
  induction ops with
  | nil =>
    intro t t' _ h hd
    simp only [runOps, Option.some.injEq] at h
    subst h; exact hd
  | cons op ops ih =>
    intro t t' hL h hd
    simp only [runOps, Option.bind_eq_some] at h
    obtain ⟨t1, h1, h2⟩ := h
    exact ih t1 t' (fun o ho => hL o (List.mem_cons_of_mem _ ho)) h2
      (Op_run_height op t t1 (hL op (List.mem_cons_self _ _)) h1 hd)

/-- C13: every tree obtained from `New()` by a sequence of `Add` and `Remove`
calls with prefix lengths in `[0, 32]` has no node below level 7 (the root is
level 0, so a path from the root has at most 8 nodes); `Get` dereferences at
most `32 / bitslen = 8` nodes for any address; and one more `Add` with a
prefix length in `[0, 32]` makes at most 7 nodes and again no node below
level 7. -/
theorem C13_bounded_depth (ops : List Op) (t : Tree)
    (hL : ∀ op ∈ ops, op.ipnet.prefixLen ≤ 32) (hrun : runOps New ops = some t) :
    heightLe 7 t.root ∧
    (∀ a, getVisits a (32 / bitslen) 0 t.root ≤ 32 / bitslen) ∧
    (∀ s p t', p.prefixLen ≤ 32 → t.Add s p = some t' →
      heightLe 7 t'.root ∧
      nodeCount (32 / bitslen) t'.root ≤ nodeCount (32 / bitslen) t.root + 7) := by
  have hd : heightLe 7 t.root := runOps_height ops New t hL hrun (heightLe_zero_node 7)
  refine ⟨hd, fun a => getVisits_le a _ _ _, fun s p t' hp h => ⟨?_, ?_⟩⟩
  · exact heightLe_addLoop s p.IP p.prefixLen hp 8 0 _ _ rfl (Add_root t t' s p h) hd
  · exact nodeCount_addLoop s p.IP p.prefixLen 8 0 _ _ _ (Add_root t t' s p h)

theorem C13_bounded_depth_witness :
    ∃ t, runOps New [.add 1 (cidr (ip4 10 192 171 24) 32), .remove 1 (cidr (ip4 10 192 171 25) 32),
        .add 2 (cidr (ip4 10 0 0 0) 7)] = some t ∧
      heightLe 7 t.root ∧
      (∀ a, getVisits a (32 / bitslen) 0 t.root ≤ 32 / bitslen) ∧
      (∀ s p t', p.prefixLen ≤ 32 → t.Add s p = some t' →
        heightLe 7 t'.root ∧
        nodeCount (32 / bitslen) t'.root ≤ nodeCount (32 / bitslen) t.root + 7) :=
  have hs : (runOps New [.add 1 (cidr (ip4 10 192 171 24) 32),
      .remove 1 (cidr (ip4 10 192 171 25) 32), .add 2 (cidr (ip4 10 0 0 0) 7)]).isSome = true := by
    decide
  ⟨_, (Option.some_get hs).symm,
    C13_bounded_depth _ _ (by decide) (Option.some_get hs).symm⟩


end Iplookuptree
